import Mathlib

/-!
# Verification of the TradeSentinel portfolio-metrics engine

Shallow embedding of the core computation layer of the repository:

* `src/metrics.py` — the risk/performance statistics library
  (`calculate_var`, `calculate_cvar`, `sharpe_ratio`, `sortino_ratio`,
  `calmar_ratio`, `max_drawdown`, `correlation_matrix`, `win_loss_stats`);
* `src/pnl_calc.py` — `calculate_pnl`;
* `src/metrics_service.py` — `compute_portfolio_metrics`;
* the time-series PnL construction and the Advanced Metrics block of
  `src/dashboard.py` / `src/ui_sections.py`.

The Python code computes with IEEE-754 doubles through numpy/pandas, where
`np.nan` doubles as the "missing value" / "undefined" sentinel and divisions
by zero silently produce `±inf`/`nan`.  The embedding models a double as an
element of `EF`: an exact rational, `+inf`, `-inf`, or `nan`.  Finite float
rounding is idealised away (every finite value is an exact rational); the
special-value propagation rules of numpy that the code can actually reach
(division by zero, comparisons against `nan`, skip-`nan` reductions) are
modelled explicitly.
-/

/-- A numpy/pandas double: `nan` (missing value / sentinel `np.nan`),
`pinf`/`ninf` (`±np.inf`), or a finite value idealised as an exact
rational. -/
inductive EF where
  | nan : EF
  | pinf : EF
  | ninf : EF
  | fin : ℚ → EF
deriving DecidableEq

namespace EF

/-- IEEE negation. -/
def neg : EF → EF
  | nan => nan
  | pinf => ninf
  | ninf => pinf
  | fin q => fin (-q)

/-- IEEE addition: `nan` is absorbing, `inf + (-inf) = nan`. -/
def add : EF → EF → EF
  | nan, _ => nan
  | _, nan => nan
  | pinf, ninf => nan
  | ninf, pinf => nan
  | pinf, _ => pinf
  | _, pinf => pinf
  | ninf, _ => ninf
  | _, ninf => ninf
  | fin a, fin b => fin (a + b)

/-- IEEE subtraction. -/
def sub (a b : EF) : EF := add a (neg b)

/-- IEEE multiplication: `nan` absorbing, `inf * 0 = nan`. -/
def mul : EF → EF → EF
  | nan, _ => nan
  | _, nan => nan
  | pinf, pinf => pinf
  | pinf, ninf => ninf
  | ninf, pinf => ninf
  | ninf, ninf => pinf
  | pinf, fin q => if 0 < q then pinf else if q < 0 then ninf else nan
  | fin q, pinf => if 0 < q then pinf else if q < 0 then ninf else nan
  | ninf, fin q => if 0 < q then ninf else if q < 0 then pinf else nan
  | fin q, ninf => if 0 < q then ninf else if q < 0 then pinf else nan
  | fin a, fin b => fin (a * b)

/-- IEEE division as numpy performs it (no exception): `x / 0` is
`±inf` by the sign of `x` and `0 / 0 = nan`; `inf / inf = nan`;
a finite value divided by `±inf` is `0`.  Rationals have no `-0`, so a
zero divisor always behaves as `+0` — the sign the modelled code produces
(its zero denominators arise from exact sums, never from a negative
underflow). -/
def div : EF → EF → EF
  | nan, _ => nan
  | _, nan => nan
  | pinf, pinf => nan
  | pinf, ninf => nan
  | ninf, pinf => nan
  | ninf, ninf => nan
  | pinf, fin q => if q < 0 then ninf else pinf
  | ninf, fin q => if q < 0 then pinf else ninf
  | fin _, pinf => fin 0
  | fin _, ninf => fin 0
  | fin a, fin b =>
      if b = 0 then (if 0 < a then pinf else if a < 0 then ninf else nan)
      else fin (a / b)

/-- IEEE `<=` as a boolean: any comparison involving `nan` is `False`. -/
def leb : EF → EF → Bool
  | nan, _ => false
  | _, nan => false
  | ninf, _ => true
  | pinf, pinf => true
  | pinf, _ => false
  | fin _, pinf => true
  | fin _, ninf => false
  | fin a, fin b => decide (a ≤ b)

/-- IEEE `<` as a boolean: any comparison involving `nan` is `False`. -/
def ltb : EF → EF → Bool
  | nan, _ => false
  | _, nan => false
  | ninf, ninf => false
  | ninf, _ => true
  | pinf, _ => false
  | fin _, pinf => true
  | fin _, ninf => false
  | fin a, fin b => decide (a < b)

/-- Maximum of two non-`nan` values (`nan` handling is done by the
callers, mirroring pandas' skip-`nan` logic). -/
def max2 (a b : EF) : EF := if leb a b then b else a

/-- Minimum of two non-`nan` values. -/
def min2 (a b : EF) : EF := if leb a b then a else b

/-- IEEE absolute value. -/
def abs : EF → EF
  | nan => nan
  | pinf => pinf
  | ninf => pinf
  | fin q => fin |q|

/-- Is this a finite value? -/
def isFin : EF → Bool
  | fin _ => true
  | _ => false

/-- The rational carried by a finite value (junk `0` otherwise; only used
under an `isFin` guard). -/
def toQ : EF → ℚ
  | fin q => q
  | _ => 0

end EF

/-- pandas `Series.dropna()`: remove the `nan` entries. -/
def dropna (xs : List EF) : List EF := xs.filter (fun x => x ≠ EF.nan)

/-- Tail worker for `pctChange`: one entry per element, each compared to
its predecessor. -/
def pctChangeGo (prev : EF) : List EF → List EF
  | [] => []
  | x :: rest => EF.div (EF.sub x prev) prev :: pctChangeGo x rest

/-- pandas `Series.pct_change()` applied to a series: the first entry is
`nan`, each later entry is `(x_t - x_(t-1)) / x_(t-1)` with IEEE division
(so a zero previous value yields `±inf`/`nan`, not an error). -/
def pctChange : List EF → List EF
  | [] => []
  | x :: rest => EF.nan :: pctChangeGo x rest

/-- pandas `Series.cummax()` (skip-`nan`): a `nan` entry stays `nan` and
does not update the running maximum. -/
def cummaxGo (m : EF) : List EF → List EF
  | [] => []
  | x :: rest =>
      if x = EF.nan then EF.nan :: cummaxGo m rest
      else EF.max2 m x :: cummaxGo (EF.max2 m x) rest

/-- pandas `Series.cummax()`; seeding the running maximum with `-inf`
leaves the first non-`nan` entry as its own maximum. -/
def cummax (xs : List EF) : List EF := cummaxGo EF.ninf xs

/-- pandas `Series.min()` (default `skipna=True`): the minimum over the
non-`nan` entries, `nan` when there are none. -/
def seriesMin (xs : List EF) : EF :=
  xs.foldl
    (fun acc x =>
      if x = EF.nan then acc else if acc = EF.nan then x else EF.min2 acc x)
    EF.nan

/-- pandas `Series.sum()` (default `skipna=True`; an empty sum is `0.0`). -/
def seriesSum (xs : List EF) : EF := (dropna xs).foldl EF.add (EF.fin 0)

/-- pandas `Series.mean()` (default `skipna=True`): `nan` on an empty or
all-`nan` series. -/
def seriesMean (xs : List EF) : EF :=
  let v := dropna xs
  if v.isEmpty then EF.nan
  else EF.div (v.foldl EF.add (EF.fin 0)) (EF.fin v.length)

/-- Mean of a list of rationals. -/
def ratMean (l : List ℚ) : ℚ := l.sum / l.length

/-- Population variance (`ddof=0`) of a list of rationals. -/
def ratVar (l : List ℚ) : ℚ :=
  ((l.map (fun x => (x - ratMean l) ^ 2)).sum) / l.length

/-- The population variance computed inside pandas `Series.std(ddof=0)`
(skip-`nan`): `nan` on no data, `nan` as soon as an infinite entry is
present (the mean is then infinite and the squared deviations involve
`inf - inf`), otherwise the exact rational variance.  The source compares
`std = sqrt(popVar)` against thresholds; those comparisons are carried out
on the variance against the squared threshold, which is equivalent since
both sides are non-negative. -/
def popVar (xs : List EF) : EF :=
  let v := dropna xs
  if v.isEmpty then EF.nan
  else if v.all EF.isFin then EF.fin (ratVar (v.map EF.toQ)) else EF.nan

/-- Total order used by `np.sort` on doubles: `-inf < finite < +inf` and
`nan` sorts last. -/
def sortLeb : EF → EF → Bool
  | _, EF.nan => true
  | EF.nan, _ => false
  | a, b => EF.leb a b

/-- `np.sort` on a series of doubles. -/
def sortSeries (xs : List EF) : List EF :=
  xs.insertionSort (fun a b => sortLeb a b = true)

/-- numpy linear-interpolated percentile on an already sorted list:
with `h = p/100 * (n-1)` and `lo = ⌊h⌋`, the result is
`a[lo] + (h - lo) * (a[lo+1] - a[lo])` (the upper index clipped to the
last element). -/
def percentileOfSorted (ys : List EF) (p : ℚ) : EF :=
  let n := ys.length
  let h : ℚ := p / 100 * (n - 1)
  let lo : ℕ := h.floor.toNat
  let a := ys.getD lo EF.nan
  let b := ys.getD (lo + 1) a
  EF.add a (EF.mul (EF.fin (h - h.floor)) (EF.sub b a))

/-- `np.percentile(data, p)` with the default linear interpolation. -/
def npPercentile (xs : List EF) (p : ℚ) : EF :=
  percentileOfSorted (sortSeries xs) p

/-! ## The statistics library (`src/metrics.py`) -/

/-- `calculate_var` (src/metrics.py:34-40): the linear-interpolated
`(1 - confidence_level) * 100` percentile of the non-missing returns;
`np.nan` when the series is empty or all-missing.  The float expression
`(1 - confidence_level) * 100` is idealised as its exact rational value. -/
def calculate_var (returns : List EF) (confidence_level : ℚ) : EF :=
  if returns.isEmpty || (dropna returns).isEmpty then EF.nan
  else npPercentile (dropna returns) ((1 - confidence_level) * 100)

/-- `calculate_cvar` (src/metrics.py:43-53): mean of the entries of the
original series that compare `<=` VaR (a `nan` entry never does), `np.nan`
when the series is empty/all-missing or no entry is selected. -/
def calculate_cvar (returns : List EF) (confidence_level : ℚ) : EF :=
  if returns.isEmpty || (dropna returns).isEmpty then EF.nan
  else
    let var := calculate_var returns confidence_level
    let cvar_values := returns.filter (fun x => EF.leb x var)
    if cvar_values.isEmpty then EF.nan else seriesMean cvar_values

/-- The defined value of a Sharpe/Sortino ratio, represented by the pair
(mean of the excess series, relevant population variance).  The float the
source returns is `sqrt 252 * meanExcess / sqrt varExcess`, an irrational
function of this pair; the claims under verification concern only when the
sentinel is produced, which the `Option` layer captures exactly. -/
structure RatioValue where
  meanExcess : EF
  varExcess : EF
deriving DecidableEq

/-- `1e-12 ^ 2`: the square of the volatility guard threshold. -/
def eps2 : ℚ := (1 / 10 ^ 12) ^ 2

/-- `sharpe_ratio` (src/metrics.py:56-68): `np.nan` (here `none`) when the
series is empty/all-missing or the population standard deviation of the
excess series is below `1e-12`.  The source compares
`std_excess < 1e-12`; the embedding compares the variance against
`(1e-12)^2`, equivalent since both are non-negative, and `EF.ltb` returns
`false` on `nan` exactly as the float `<` does. -/
def sharpe_ratio (returns : List EF) (risk_free_rate : ℚ) : Option RatioValue :=
  if returns.isEmpty || (dropna returns).isEmpty then none
  else
    let excess := returns.map (fun x => EF.sub x (EF.fin (risk_free_rate / 252)))
    let std2 := popVar excess
    if EF.ltb std2 (EF.fin eps2) then none
    else some ⟨seriesMean excess, std2⟩

/-- `sortino_ratio` (src/metrics.py:71-84): like Sharpe but the
denominator is the standard deviation of the strictly negative excess
entries; `np.nan` (here `none`) when that standard deviation is `nan`
(empty downside subset) or below `1e-12`. -/
def sortino_ratio (returns : List EF) (risk_free_rate : ℚ) : Option RatioValue :=
  if returns.isEmpty || (dropna returns).isEmpty then none
  else
    let excess := returns.map (fun x => EF.sub x (EF.fin (risk_free_rate / 252)))
    let downside := excess.filter (fun x => EF.ltb x (EF.fin 0))
    let downside_std2 := popVar downside
    if downside_std2 = EF.nan || EF.ltb downside_std2 (EF.fin eps2) then none
    else some ⟨seriesMean excess, downside_std2⟩

/-- Tail worker for `cumprod`. -/
def cumprodGo (acc : EF) : List EF → List EF
  | [] => []
  | x :: rest => EF.mul acc x :: cumprodGo (EF.mul acc x) rest

/-- pandas `Series.cumprod()`. -/
def cumprod (xs : List EF) : List EF := cumprodGo (EF.fin 1) xs

/-- `max_drawdown` (src/metrics.py:98-114): running maximum of the input,
elementwise `value / running_max - 1`, then the skip-`nan` minimum. -/
def max_drawdown (cumulative_returns : List EF) : EF :=
  let rolling_max := cummax cumulative_returns
  let drawdown :=
    List.zipWith (fun v m => EF.sub (EF.div v m) (EF.fin 1))
      cumulative_returns rolling_max
  seriesMin drawdown

/-- `calmar_ratio` (src/metrics.py:87-96): the source returns
`annual_return / abs(mdd)` when `mdd != 0` (a float comparison that is
`True` for a `nan` drawdown, in which case the quotient itself is `nan`,
i.e. the sentinel) and `np.nan` otherwise.  A defined result is
represented by `(∏(1+r), n, mdd)`; the float the source returns is
`((∏(1+r)) ^ (252/n) - 1) / |mdd|`, an irrational function of this
triple.  `none` captures exactly the cases in which the source yields the
`np.nan` sentinel through its guards (`returns` empty/all-missing,
`mdd == 0`, or `mdd` itself `nan`). -/
structure CalmarValue where
  totalGrowth : EF
  nPeriods : ℕ
  maxDrawdown : EF
deriving DecidableEq

/-- `calmar_ratio` embedding; see `CalmarValue`. -/
def calmar_ratio (returns : List EF) : Option CalmarValue :=
  if returns.isEmpty || (dropna returns).isEmpty then none
  else
    let onePlus := returns.map (fun x => EF.add (EF.fin 1) x)
    let cumulative := cumprod onePlus
    let mdd := max_drawdown cumulative
    if mdd = EF.fin 0 || mdd = EF.nan then none
    else some ⟨onePlus.foldl EF.mul (EF.fin 1), returns.length, mdd⟩

/-! ### Correlation matrix

`correlation_matrix` (src/metrics.py:116-131) receives the wide
time × ticker price table, applies `pct_change` (per column) and
`dropna` (dropping every row that still contains a missing return) and
returns `returns.corr()`: the Pearson correlation of every column pair.
The wide table is embedded as its list of ticker columns over a shared
time index. -/

/-- A cell of the correlation matrix: the undefined sentinel (`np.nan`),
or a defined Pearson correlation represented by its covariance and the
product of the two variances — the float value is `cov / sqrt varProd`,
an irrational function of this pair. -/
inductive CorrEntry where
  | undef : CorrEntry
  | corr (cov : ℚ) (varProd : ℚ) : CorrEntry
deriving DecidableEq

/-- Number of rows of a column-list table. -/
def nRows (cols : List (List EF)) : ℕ := (cols.map List.length).foldr max 0

/-- Is row `i` free of missing values across all columns? -/
def rowKept (cols : List (List EF)) (i : ℕ) : Bool :=
  cols.all (fun c => c.getD i EF.nan ≠ EF.nan)

/-- `price_df.pct_change().dropna()`: per-column percentage change, then
every row containing a missing return is dropped. -/
def cleanedCols (cols : List (List EF)) : List (List EF) :=
  let rets := cols.map pctChange
  let keep := (List.range (nRows rets)).filter (fun i => rowKept rets i)
  rets.map (fun c => keep.map (fun i => c.getD i EF.nan))

/-- Covariance (over `n`) of two aligned columns, with IEEE arithmetic.
Pearson correlation is `cov x y / sqrt (cov x x * cov y y)`; the `ddof`
convention cancels between numerator and denominator. -/
def covE (x y : List EF) : EF :=
  seriesMean
    (List.zipWith
      (fun a b => EF.mul (EF.sub a (seriesMean x)) (EF.sub b (seriesMean y)))
      x y)

/-- One cell of `returns.corr()`: `nan` when either variance is zero
(constant column) or any statistic is undefined (e.g. no rows). -/
def corrEntry (x y : List EF) : CorrEntry :=
  match covE x y, EF.mul (covE x x) (covE y y) with
  | EF.fin c, EF.fin p => if p = 0 then CorrEntry.undef else CorrEntry.corr c p
  | _, _ => CorrEntry.undef

/-- `correlation_matrix` (src/metrics.py:116-131). -/
def correlation_matrix (cols : List (List EF)) : List (List CorrEntry) :=
  let cc := cleanedCols cols
  cc.map (fun x => cc.map (fun y => corrEntry x y))

/-- The result record of `win_loss_stats` (src/metrics.py:133-152). -/
structure WinLossStats where
  win_rate : EF
  loss_rate : EF
  profit_factor : EF
deriving DecidableEq

/-- `win_loss_stats` (src/metrics.py:133-152): wins are the entries
`> 0`, losses the entries `< 0` (a `nan` entry is neither); rates divide
by the full length (`nan` rates on an empty series); the profit factor is
`+inf` when the losses sum to zero and the wins sum is positive, the
`np.nan` sentinel when both sums vanish, and `sum wins / |sum losses|`
otherwise. -/
def win_loss_stats (pnl_series : List EF) : WinLossStats :=
  let wins := pnl_series.filter (fun x => EF.ltb (EF.fin 0) x)
  let losses := pnl_series.filter (fun x => EF.ltb x (EF.fin 0))
  let n := pnl_series.length
  { win_rate := if 0 < n then EF.fin ((wins.length : ℚ) / (n : ℚ)) else EF.nan
    loss_rate := if 0 < n then EF.fin ((losses.length : ℚ) / (n : ℚ)) else EF.nan
    profit_factor :=
      if seriesSum losses = EF.fin 0 then
        (if EF.ltb (EF.fin 0) (seriesSum wins) then EF.pinf else EF.nan)
      else EF.div (seriesSum wins) (EF.abs (seriesSum losses)) }

/-! ## PnL calculator (`src/pnl_calc.py`) and time-series PnL
(`src/ui_sections.py` `render_block` / `src/dashboard.py` 362-376) -/

/-- One output row of `calculate_pnl`. -/
structure PnLRow where
  ticker : String
  quantity : ℚ
  startPrice : ℚ
  endPrice : ℚ
  pnl : ℚ
  changePct : ℚ
  positionValue : ℚ
deriving DecidableEq

/-- `quantities.get(ticker, 0)`. -/
def lookupQty (quantities : List (String × ℚ)) (t : String) : ℚ :=
  (quantities.lookup t).getD 0

/-- `calculate_pnl` (src/pnl_calc.py:12-33): per ticker (in input order),
skip empty series, otherwise emit a row with the first/last close as
start/end price, quantity defaulting to `0`, `PnL = (end-start)*qty`,
position value `end*qty`, and percentage change
`(end-start)/start*100` guarded by the Python truthiness test
`if start` (i.e. `start ≠ 0`), else `0.0`.  A `dict` is embedded as an
association list in insertion order. -/
def calculate_pnl (price_data : List (String × List ℚ))
    (quantities : List (String × ℚ)) : List PnLRow :=
  price_data.filterMap (fun p =>
    match p.2 with
    | [] => none
    | c :: rest =>
      let start := c
      let endP := (c :: rest).getLast (List.cons_ne_nil c rest)
      let qty := lookupQty quantities p.1
      some { ticker := p.1
             quantity := qty
             startPrice := start
             endPrice := endP
             pnl := (endP - start) * qty
             changePct := if start ≠ 0 then (endP - start) / start * 100 else 0
             positionValue := endP * qty })

/-- One row of the long-format PnL time series (`combined_df`). -/
structure TSRow where
  time : ℕ
  ticker : String
  quantity : ℚ
  price : ℚ
  positionValue : ℚ
  pnl : ℚ
deriving DecidableEq

/-- The per-ticker rows of the PnL-over-time table
(src/ui_sections.py:95-109 and src/dashboard.py:362-376): for each ticker
with a non-empty price series, one row per bar with
`Position Value ($) = price * qty` and
`PnL = (price - price.iloc[0]) * qty`, the reference price being that
ticker's own chronological first bar.  A bar is `(time, close)` with times
in chronological order. -/
def timeSeriesPnL (price_data : List (String × List (ℕ × ℚ)))
    (quantities : List (String × ℚ)) : List TSRow :=
  price_data.flatMap (fun p =>
    match p.2 with
    | [] => []
    | b :: bars =>
      let qty := lookupQty quantities p.1
      let firstPrice := b.2
      (b :: bars).map (fun bar =>
        { time := bar.1
          ticker := p.1
          quantity := qty
          price := bar.2
          positionValue := bar.2 * qty
          pnl := (bar.2 - firstPrice) * qty }))

/-! ## Portfolio metrics aggregator (`src/metrics_service.py`) and the
dashboard's Advanced Metrics block (`src/dashboard.py:459-494`) -/

/-- The distinct timestamps of the table, ascending — the group keys of
`df.groupby("Time")` (pandas sorts group keys). -/
def groupTimes (rows : List TSRow) : List ℕ :=
  ((rows.map TSRow.time).dedup).insertionSort (· ≤ ·)

/-- `df.groupby("Time")[col].sum()`: for each distinct time in ascending
order, the sum of the selected column over the rows at that time. -/
def groupSumBy (f : TSRow → ℚ) (rows : List TSRow) : List ℚ :=
  (groupTimes rows).map
    (fun t => ((rows.filter (fun r => r.time = t)).map f).sum)

/-- `pnl_df.pivot(index="Time", columns="Ticker", values="Price")`: the
wide price table as one column per ticker (tickers sorted, as pandas
sorts pivot columns), each column indexed by the ascending distinct
times, `nan` where the ticker has no row at that time. -/
def pivotCols (rows : List TSRow) : List (List EF) :=
  let times := groupTimes rows
  let tickers := ((rows.map TSRow.ticker).dedup).insertionSort (· ≤ ·)
  tickers.map (fun k => times.map (fun t =>
    match rows.find? (fun r => decide (r.time = t) && decide (r.ticker = k)) with
    | some r => EF.fin r.price
    | none => EF.nan))

/-- The `returns` series of `compute_portfolio_metrics`
(src/metrics_service.py:20): the PnL column grouped by time and summed,
then `pct_change().dropna()`. -/
def portfolioReturns (rows : List TSRow) : List EF :=
  dropna (pctChange ((groupSumBy TSRow.pnl rows).map EF.fin))

/-- The metrics bundle assembled by `compute_portfolio_metrics`
(src/metrics_service.py:26-35). -/
structure MetricsBundle where
  var95 : EF
  cvar95 : EF
  sharpe : Option RatioValue
  sortino : Option RatioValue
  calmar : Option CalmarValue
  maxDrawdown : EF
  corrMatrix : List (List CorrEntry)
deriving DecidableEq

/-- `compute_portfolio_metrics` (src/metrics_service.py:14-35): `{}`
(here `none`) only when the input table is empty; otherwise the bundle
computed from the grouped-PnL return series, with `max_drawdown` applied
to that return series and the correlation matrix to the pivoted wide
price table.  The float default confidence level `0.95` is idealised as
the exact rational `95/100` (so `(1-0.95)*100`, which floats round to
`5.000000000000004`, is the exact percentile `5`). -/
def compute_portfolio_metrics (rows : List TSRow) : Option MetricsBundle :=
  if rows.isEmpty then none
  else
    let returns := portfolioReturns rows
    some { var95 := calculate_var returns (95 / 100)
           cvar95 := calculate_cvar returns (95 / 100)
           sharpe := sharpe_ratio returns 0
           sortino := sortino_ratio returns 0
           calmar := calmar_ratio returns
           maxDrawdown := max_drawdown returns
           corrMatrix := correlation_matrix (pivotCols rows) }

/-- `fillna(1)` on a series. -/
def fillna1 (xs : List EF) : List EF :=
  xs.map (fun x => if x = EF.nan then EF.fin 1 else x)

/-- The cumulative series the dashboard feeds into `max_drawdown`
(src/dashboard.py:462-464): position value grouped by time and summed,
`pct_change().dropna()`, then `(1 + returns).cumprod().fillna(1)`. -/
def dashboardCumReturns (rows : List TSRow) : List EF :=
  let portfolio_values := (groupSumBy TSRow.positionValue rows).map EF.fin
  let portfolio_returns := dropna (pctChange portfolio_values)
  fillna1 (cumprod (portfolio_returns.map (fun r => EF.add (EF.fin 1) r)))

/-- The Max Drawdown figure of the dashboard's Advanced Metrics block
(src/dashboard.py:471): `max_drawdown(cum_returns)`. -/
def dashboardMaxDrawdown (rows : List TSRow) : EF :=
  max_drawdown (dashboardCumReturns rows)

/-- The aggregation described by the specification (§4.4 Steps 1 and 3):
the portfolio value series obtained by grouping position value by
timestamp, fed itself (not its returns) into `max_drawdown`. -/
def claimPortfolioValueSeries (rows : List TSRow) : List EF :=
  (groupSumBy TSRow.positionValue rows).map EF.fin

/-- Max Drawdown as the claim describes the aggregator: `max_drawdown`
of the portfolio value series itself. -/
def claimMaxDrawdown (rows : List TSRow) : EF :=
  max_drawdown (claimPortfolioValueSeries rows)

/-- A concrete PnL time series built by the repository's own time-series
constructor: one ticker `A`, quantity `1`, closes `100, 110, 99` at times
`0, 1, 2`.  Its rows carry PnL `0, 10, -1` and position value
`100, 110, 99`. -/
def exRows : List TSRow :=
  timeSeriesPnL [("A", [(0, 100), (1, 110), (2, 99)])] [("A", 1)]

/-! ## Helper lemmas on the embedded float arithmetic -/

/-- A series of exact (finite) values. -/
def rseries (xs : List ℚ) : List EF := xs.map EF.fin

/-- Entries that are finite or missing — no infinities.  This is the
shape of any real-valued return/PnL series with possible missing values
(infinities only arise downstream, through division by zero). -/
def finiteOrMissing (rs : List EF) : Prop :=
  ∀ x ∈ rs, x ≠ EF.pinf ∧ x ≠ EF.ninf

instance : DecidablePred finiteOrMissing := fun rs =>
  List.decidableBAll _ rs

theorem EF.add_fin (a b : ℚ) : EF.add (EF.fin a) (EF.fin b) = EF.fin (a + b) := rfl

theorem EF.sub_fin (a b : ℚ) : EF.sub (EF.fin a) (EF.fin b) = EF.fin (a - b) := by
  simp [EF.sub, EF.add, EF.neg, sub_eq_add_neg]

theorem EF.leb_fin (a b : ℚ) : EF.leb (EF.fin a) (EF.fin b) = decide (a ≤ b) := rfl

theorem EF.ltb_fin (a b : ℚ) : EF.ltb (EF.fin a) (EF.fin b) = decide (a < b) := rfl

theorem EF.div_fin (a b : ℚ) (hb : b ≠ 0) :
    EF.div (EF.fin a) (EF.fin b) = EF.fin (a / b) := by
  simp [EF.div, hb]

theorem EF.fin_ne_nan (q : ℚ) : EF.fin q ≠ EF.nan := by simp

theorem dropna_rseries (xs : List ℚ) : dropna (rseries xs) = rseries xs := by
  simp only [dropna, rseries, List.filter_map]
  congr 1
  apply List.filter_eq_self.mpr
  intro a _
  simp

theorem foldl_add_fin (xs : List ℚ) :
    ∀ a : ℚ, (rseries xs).foldl EF.add (EF.fin a) = EF.fin (a + xs.sum) := by
  induction xs with
  | nil => intro a; simp [rseries]
  | cons x rest ih =>
      intro a
      simp only [rseries, List.map_cons, List.foldl_cons, EF.add_fin]
      rw [show (rseries rest = rest.map EF.fin) from rfl] at ih
      rw [ih (a + x)]
      simp [add_assoc]

theorem seriesSum_rseries (xs : List ℚ) : seriesSum (rseries xs) = EF.fin xs.sum := by
  simp [seriesSum, dropna_rseries]
  simpa using foldl_add_fin xs 0

theorem seriesMean_rseries (xs : List ℚ) (h : xs ≠ []) :
    seriesMean (rseries xs) = EF.fin (xs.sum / xs.length) := by
  have hlen : (rseries xs).length = xs.length := List.length_map _ _
  have hne : ¬ (rseries xs).isEmpty = true := by
    simp [List.isEmpty_iff, rseries, h]
  simp only [seriesMean, dropna_rseries, hne, if_false, Bool.false_eq_true]
  rw [show ((rseries xs).foldl EF.add (EF.fin 0) = EF.fin xs.sum) from by
    simpa using foldl_add_fin xs 0]
  rw [hlen]
  have hlq : (xs.length : ℚ) ≠ 0 := by
    exact_mod_cast Nat.cast_ne_zero.mpr (by simpa [List.length_eq_zero] using h)
  simp [EF.div_fin _ _ hlq]

/-! ## Claims about the aggregation paths (concrete evaluations)

Batteries marks the rational arithmetic operations `@[irreducible]`; the
evaluations below restore definitional reducibility locally so that
`decide` can run the embedded pipeline on concrete inputs. -/

section ConcreteEvaluations

attribute [local semireducible] Rat.add Rat.sub Rat.mul Rat.inv

/-- Claim C1 (code bug): contrary to the claim, `compute_portfolio_metrics`
does not build the portfolio value series (it group-sums the `PnL` column,
not `Position Value ($)`) and it feeds the derived *return* series — not
the value series — into `max_drawdown`.  On the concrete PnL time series
`exRows` (one ticker, quantity 1, closes 100, 110, 99): the grouped PnL
sums are `[0, 10, -1]`, not the value series `[100, 110, 99]`; the
service's Max Drawdown field is `max_drawdown` of the grouped-PnL returns
and evaluates to `-1`, while the computation the claim describes
(`max_drawdown` of the position-value series itself) evaluates to
`-1/10`. -/
theorem C1_service_path_contradicts_claim :
    groupSumBy TSRow.pnl exRows = [0, 10, -1] ∧
    groupSumBy TSRow.positionValue exRows = [100, 110, 99] ∧
    (compute_portfolio_metrics exRows).map MetricsBundle.maxDrawdown
      = some (max_drawdown (portfolioReturns exRows)) ∧
    max_drawdown (portfolioReturns exRows) = EF.fin (-1) ∧
    claimMaxDrawdown exRows = EF.fin (-1 / 10) ∧
    max_drawdown (portfolioReturns exRows) ≠ claimMaxDrawdown exRows := by
  refine ⟨by decide, by decide, rfl, by decide, by decide, by decide⟩

/-- Claim C2 counterexample: a single-row PnL time series does *not*
yield an empty bundle — `compute_portfolio_metrics` only returns the
empty dict for an empty frame, and a one-row frame produces a populated
bundle (of undefined scalars). -/
theorem C2_counterexample :
    compute_portfolio_metrics [⟨0, "A", 1, 100, 100, 0⟩] ≠ none := by decide

/-- Claim C2 (amended): an empty PnL time series yields the empty bundle,
while a single-row one yields a *non-empty* bundle whose scalar fields
are all the undefined sentinel (`np.nan` / `none`). -/
theorem C2_amended (r : TSRow) :
    compute_portfolio_metrics [] = none ∧
    ∃ b : MetricsBundle,
      compute_portfolio_metrics [r] = some b ∧
      b.var95 = EF.nan ∧ b.cvar95 = EF.nan ∧ b.sharpe = none ∧
      b.sortino = none ∧ b.calmar = none ∧ b.maxDrawdown = EF.nan := by
  have hret : portfolioReturns [r] = [] := by
    simp [portfolioReturns, groupSumBy, groupTimes, List.insertionSort,
      List.orderedInsert, pctChange, pctChangeGo, dropna]
  refine ⟨rfl, _, rfl, ?_, ?_, ?_, ?_, ?_, ?_⟩ <;> simp [hret] <;> rfl

/-- Claim C2 witness: the amended statement at the concrete single row
used by the counterexample. -/
theorem C2_amended_witness :
    ∃ b : MetricsBundle,
      compute_portfolio_metrics [(⟨0, "A", 1, 100, 100, 0⟩ : TSRow)] = some b ∧
      b.var95 = EF.nan ∧ b.cvar95 = EF.nan ∧ b.sharpe = none ∧
      b.sortino = none ∧ b.calmar = none ∧ b.maxDrawdown = EF.nan :=
  (C2_amended ⟨0, "A", 1, 100, 100, 0⟩).2

/-- Claim C3: the two Max Drawdown aggregation paths are inconsistent.
On the PnL time series `exRows` built by the repository's own time-series
constructor (one ticker `A`, quantity 1, closes 100, 110, 99), the
dashboard path (`src/dashboard.py:462-471`: group position value by time,
cumulate `1 + returns`, feed the cumulative value series into
`max_drawdown`) yields `-1/10`, while the metrics-service path
(`src/metrics_service.py:20,32`: feed the portfolio return series into
`max_drawdown`) yields `-1`. -/
theorem C3_two_drawdown_paths_differ :
    dashboardMaxDrawdown exRows = EF.fin (-1 / 10) ∧
    (compute_portfolio_metrics exRows).map MetricsBundle.maxDrawdown
      = some (EF.fin (-1)) ∧
    dashboardMaxDrawdown exRows
      ≠ ((compute_portfolio_metrics exRows).map MetricsBundle.maxDrawdown).getD EF.nan := by
  refine ⟨by decide, by decide, by decide⟩

/-- Claim C6 counterexample: the constant (flat) value series `[0, 0]`
does not produce a Max Drawdown of `0` — the running-peak division is
`0/0 = nan` at every position and the skip-`nan` minimum of an all-`nan`
series is `nan`, the undefined sentinel. -/
theorem C6_counterexample :
    max_drawdown (rseries [0, 0]) = EF.nan ∧ EF.nan ≠ EF.fin 0 := by
  refine ⟨by decide, by decide⟩

end ConcreteEvaluations

/-! ## Claims about the PnL calculator -/

/-- Claim C4: for every ticker with a non-empty price series,
`calculate_pnl` emits a row whose start/end price are the first/last
chronological bar, whose PnL is exactly `(end - start) * quantity`,
whose position value is `end * quantity`, whose percentage change is `0`
when the start price is `0` and `(end - start)/start * 100` otherwise,
and whose quantity defaults to `0` (row still emitted) when the ticker is
absent from the quantities map. -/
theorem C4_snapshot_rows (price_data : List (String × List ℚ))
    (quantities : List (String × ℚ)) (t : String) (cs : List ℚ)
    (hmem : (t, cs) ∈ price_data) (hne : cs ≠ []) :
    ∃ row ∈ calculate_pnl price_data quantities,
      row.ticker = t ∧
      row.quantity = (quantities.lookup t).getD 0 ∧
      row.startPrice = cs.headI ∧
      row.endPrice = cs.getLastI ∧
      row.pnl = (cs.getLastI - cs.headI) * (quantities.lookup t).getD 0 ∧
      row.positionValue = cs.getLastI * (quantities.lookup t).getD 0 ∧
      (cs.headI = 0 → row.changePct = 0) ∧
      (cs.headI ≠ 0 → row.changePct = (cs.getLastI - cs.headI) / cs.headI * 100) := by
  obtain ⟨c, rest, rfl⟩ := List.exists_cons_of_ne_nil hne
  have hL : (c :: rest).getLastI = (c :: rest).getLast (List.cons_ne_nil c rest) := by
    rw [List.getLastI_eq_getLast?,
      List.getLast?_eq_getLast (c :: rest) (List.cons_ne_nil c rest)]
  refine ⟨_, List.mem_filterMap.mpr ⟨(t, c :: rest), hmem, rfl⟩,
    rfl, rfl, rfl, hL.symm, ?_, ?_, ?_, ?_⟩
  · rw [hL]
    rfl
  · rw [hL]
    rfl
  · intro h0
    have hc : c = 0 := h0
    show (if c ≠ 0 then
        ((c :: rest).getLast (List.cons_ne_nil c rest) - c) / c * 100 else 0) = 0
    simp [hc]
  · intro h0
    have hc : c ≠ 0 := h0
    show (if c ≠ 0 then
        ((c :: rest).getLast (List.cons_ne_nil c rest) - c) / c * 100 else 0)
      = ((c :: rest).getLastI - (c :: rest).headI) / (c :: rest).headI * 100
    rw [hL, if_pos hc]
    rfl

/-- Claim C4 witness: the snapshot-row property at a concrete input — a
ticker `A` with closes `100, 110, 99` and a quantities map that does not
mention `A` (quantity defaults to `0`). -/
theorem C4_snapshot_rows_witness :
    (("A", [(100 : ℚ), 110, 99]) ∈ [("A", [(100 : ℚ), 110, 99])] ∧
      ([(100 : ℚ), 110, 99] : List ℚ) ≠ []) ∧
    ∃ row ∈ calculate_pnl [("A", [(100 : ℚ), 110, 99])] [("B", 5)],
      row.ticker = "A" ∧
      row.quantity = (([("B", (5 : ℚ))]).lookup "A").getD 0 ∧
      row.startPrice = ([(100 : ℚ), 110, 99] : List ℚ).headI ∧
      row.endPrice = ([(100 : ℚ), 110, 99] : List ℚ).getLastI ∧
      row.pnl = (([(100 : ℚ), 110, 99] : List ℚ).getLastI
          - ([(100 : ℚ), 110, 99] : List ℚ).headI)
          * (([("B", (5 : ℚ))]).lookup "A").getD 0 ∧
      row.positionValue = ([(100 : ℚ), 110, 99] : List ℚ).getLastI
          * (([("B", (5 : ℚ))]).lookup "A").getD 0 ∧
      (([(100 : ℚ), 110, 99] : List ℚ).headI = 0 → row.changePct = 0) ∧
      (([(100 : ℚ), 110, 99] : List ℚ).headI ≠ 0 →
        row.changePct = (([(100 : ℚ), 110, 99] : List ℚ).getLastI
          - ([(100 : ℚ), 110, 99] : List ℚ).headI)
          / ([(100 : ℚ), 110, 99] : List ℚ).headI * 100) :=
  ⟨⟨by decide, by decide⟩,
    C4_snapshot_rows [("A", [100, 110, 99])] [("B", 5)] "A" [100, 110, 99]
      (by decide) (by decide)⟩

/-- Claim C5: `timeSeriesPnL` anchors each ticker's PnL at that ticker's
own chronological first bar: every emitted row of a ticker carries
`PnL = (price - first price of that ticker) * quantity`, and in
particular the row at the ticker's own first timestamp has PnL exactly
`0`. -/
theorem C5_pnl_anchored_at_own_first_bar
    (price_data : List (String × List (ℕ × ℚ)))
    (quantities : List (String × ℚ)) (t : String) (bars : List (ℕ × ℚ))
    (hmem : (t, bars) ∈ price_data) (hne : bars ≠ []) :
    (∀ bar ∈ bars,
      ∃ row ∈ timeSeriesPnL price_data quantities,
        row.ticker = t ∧ row.time = bar.1 ∧ row.price = bar.2 ∧
        row.pnl = (bar.2 - bars.headI.2) * (quantities.lookup t).getD 0) ∧
    ∃ row ∈ timeSeriesPnL price_data quantities,
      row.ticker = t ∧ row.time = bars.headI.1 ∧ row.pnl = 0 := by
  obtain ⟨b, rest, rfl⟩ := List.exists_cons_of_ne_nil hne
  constructor
  · intro bar hbar
    exact ⟨_, List.mem_flatMap.mpr
        ⟨(t, b :: rest), hmem, List.mem_map.mpr ⟨bar, hbar, rfl⟩⟩,
      rfl, rfl, rfl, rfl⟩
  · refine ⟨_, List.mem_flatMap.mpr
        ⟨(t, b :: rest), hmem,
          List.mem_map.mpr ⟨b, List.mem_cons_self b rest, rfl⟩⟩,
      rfl, rfl, ?_⟩
    show (b.2 - (b :: rest).headI.2) * lookupQty quantities t = 0
    simp [List.headI]

/-- Claim C5 witness: the anchoring property at a concrete input — ticker
`A`, bars at times `7, 9` with closes `50, 60`, quantity `2`. -/
theorem C5_pnl_anchored_witness :
    (("A", [((7 : ℕ), (50 : ℚ)), (9, 60)])
        ∈ [("A", [((7 : ℕ), (50 : ℚ)), (9, 60)])] ∧
      ([((7 : ℕ), (50 : ℚ)), (9, 60)] : List (ℕ × ℚ)) ≠ []) ∧
    ((∀ bar ∈ [((7 : ℕ), (50 : ℚ)), (9, 60)],
      ∃ row ∈ timeSeriesPnL [("A", [((7 : ℕ), (50 : ℚ)), (9, 60)])] [("A", 2)],
        row.ticker = "A" ∧ row.time = bar.1 ∧ row.price = bar.2 ∧
        row.pnl = (bar.2 - ([((7 : ℕ), (50 : ℚ)), (9, 60)] : List (ℕ × ℚ)).headI.2)
          * (([("A", (2 : ℚ))]).lookup "A").getD 0) ∧
    ∃ row ∈ timeSeriesPnL [("A", [((7 : ℕ), (50 : ℚ)), (9, 60)])] [("A", 2)],
      row.ticker = "A" ∧
      row.time = ([((7 : ℕ), (50 : ℚ)), (9, 60)] : List (ℕ × ℚ)).headI.1 ∧
      row.pnl = 0) :=
  ⟨⟨by decide, by decide⟩,
    C5_pnl_anchored_at_own_first_bar [("A", [(7, 50), (9, 60)])] [("A", 2)]
      "A" [(7, 50), (9, 60)] (by decide) (by decide)⟩

/-! ## Claim C8: win/loss statistics -/

theorem filter_rseries (p : ℚ → Bool) (pe : EF → Bool)
    (h : ∀ q, pe (EF.fin q) = p q) (xs : List ℚ) :
    (rseries xs).filter pe = rseries (xs.filter p) := by
  simp only [rseries, List.filter_map]
  congr 1
  apply List.filter_congr
  intro a _
  exact h a

theorem sum_neg_of_all_neg :
    ∀ l : List ℚ, (∀ x ∈ l, x < 0) → l ≠ [] → l.sum < 0 := by
  intro l
  induction l with
  | nil => intro _ h; exact absurd rfl h
  | cons x rest ih =>
      intro hall _
      rcases List.eq_nil_or_concat rest with h | _
      · subst h
        simpa using hall x (List.mem_cons_self x [])
      · have hx : x < 0 := hall x (List.mem_cons_self x rest)
        by_cases hr : rest = []
        · subst hr; simpa using hx
        · have := ih (fun y hy => hall y (List.mem_cons_of_mem x hy)) hr
          simpa using add_neg hx this

/-- Claim C8: for every PnL series, `win_loss_stats` returns
`winRate = count(>0)/count(all)` and `lossRate = count(<0)/count(all)`
(both the undefined sentinel when the series is empty), and
`profitFactor = sum(wins)/abs(sum(losses))` with the zero-loss policy:
`+inf` when the wins sum is positive, undefined otherwise; in particular
an all-positive series yields `profitFactor = +inf`, `winRate = 1`,
`lossRate = 0`. -/
theorem C8_win_loss_stats (xs : List ℚ) :
    (win_loss_stats (rseries xs)).win_rate
      = (if xs = [] then EF.nan
         else EF.fin (((xs.filter (fun x => 0 < x)).length : ℚ) / (xs.length : ℚ))) ∧
    (win_loss_stats (rseries xs)).loss_rate
      = (if xs = [] then EF.nan
         else EF.fin (((xs.filter (fun x => x < 0)).length : ℚ) / (xs.length : ℚ))) ∧
    (win_loss_stats (rseries xs)).profit_factor
      = (if (xs.filter (fun x => x < 0)).sum = 0 then
           (if 0 < (xs.filter (fun x => 0 < x)).sum then EF.pinf else EF.nan)
         else EF.fin ((xs.filter (fun x => 0 < x)).sum
            / |(xs.filter (fun x => x < 0)).sum|)) ∧
    (xs ≠ [] → (∀ x ∈ xs, 0 < x) →
      (win_loss_stats (rseries xs)).profit_factor = EF.pinf ∧
      (win_loss_stats (rseries xs)).win_rate = EF.fin 1 ∧
      (win_loss_stats (rseries xs)).loss_rate = EF.fin 0) := by
  have hw : (rseries xs).filter (fun x => EF.ltb (EF.fin 0) x)
      = rseries (xs.filter (fun x => 0 < x)) :=
    filter_rseries _ _ (fun q => rfl) xs
  have hl : (rseries xs).filter (fun x => EF.ltb x (EF.fin 0))
      = rseries (xs.filter (fun x => x < 0)) :=
    filter_rseries _ _ (fun q => rfl) xs
  have hlen : (rseries xs).length = xs.length := List.length_map _ _
  have hwin : (win_loss_stats (rseries xs)).win_rate
      = (if xs = [] then EF.nan
         else EF.fin (((xs.filter (fun x => 0 < x)).length : ℚ) / (xs.length : ℚ))) := by
    show (if 0 < (rseries xs).length then
        EF.fin ((((rseries xs).filter (fun x => EF.ltb (EF.fin 0) x)).length : ℚ)
          / ((rseries xs).length : ℚ)) else EF.nan) = _
    rw [hw, hlen]
    by_cases hx : xs = []
    · subst hx; simp
    · have : 0 < xs.length := List.length_pos.mpr hx
      rw [if_pos this, if_neg hx]
      simp [rseries]
  have hloss : (win_loss_stats (rseries xs)).loss_rate
      = (if xs = [] then EF.nan
         else EF.fin (((xs.filter (fun x => x < 0)).length : ℚ) / (xs.length : ℚ))) := by
    show (if 0 < (rseries xs).length then
        EF.fin ((((rseries xs).filter (fun x => EF.ltb x (EF.fin 0))).length : ℚ)
          / ((rseries xs).length : ℚ)) else EF.nan) = _
    rw [hl, hlen]
    by_cases hx : xs = []
    · subst hx; simp
    · have : 0 < xs.length := List.length_pos.mpr hx
      rw [if_pos this, if_neg hx]
      simp [rseries]
  have hpf : (win_loss_stats (rseries xs)).profit_factor
      = (if (xs.filter (fun x => x < 0)).sum = 0 then
           (if 0 < (xs.filter (fun x => 0 < x)).sum then EF.pinf else EF.nan)
         else EF.fin ((xs.filter (fun x => 0 < x)).sum
            / |(xs.filter (fun x => x < 0)).sum|)) := by
    show (if seriesSum ((rseries xs).filter (fun x => EF.ltb x (EF.fin 0))) = EF.fin 0
        then (if EF.ltb (EF.fin 0)
            (seriesSum ((rseries xs).filter (fun x => EF.ltb (EF.fin 0) x)))
          then EF.pinf else EF.nan)
        else EF.div (seriesSum ((rseries xs).filter (fun x => EF.ltb (EF.fin 0) x)))
          (EF.abs (seriesSum ((rseries xs).filter (fun x => EF.ltb x (EF.fin 0)))))) = _
    rw [hw, hl, seriesSum_rseries, seriesSum_rseries]
    by_cases hz : (xs.filter (fun x => x < 0)).sum = 0
    · rw [hz]
      simp only [EF.ltb_fin]
      by_cases hp : 0 < (xs.filter (fun x => 0 < x)).sum
      · simp [hp]
      · simp [hp]
    · have : EF.fin ((xs.filter (fun x => x < 0)).sum) ≠ EF.fin 0 := by
        simpa using hz
      rw [if_neg this, if_neg hz]
      show EF.div _ (EF.fin |(xs.filter (fun x => x < 0)).sum|) = _
      rw [EF.div_fin _ _ (by simpa using hz)]
  refine ⟨hwin, hloss, hpf, ?_⟩
  intro hne hallpos
  have hfw : xs.filter (fun x => 0 < x) = xs :=
    List.filter_eq_self.mpr (fun a ha => by simpa using hallpos a ha)
  have hfl : xs.filter (fun x => x < 0) = [] := by
    apply List.filter_eq_nil_iff.mpr
    intro a ha
    simpa using le_of_lt (hallpos a ha)
  have hsum : 0 < xs.sum := List.sum_pos xs hallpos hne
  have hlq : (xs.length : ℚ) ≠ 0 := by
    exact_mod_cast Nat.cast_ne_zero.mpr (by simpa [List.length_eq_zero] using hne)
  refine ⟨?_, ?_, ?_⟩
  · rw [hpf, hfw, hfl]
    simp [hsum]
  · rw [hwin, hfw, if_neg hne, div_self hlq]
  · rw [hloss, hfl, if_neg hne]
    simp

section ConcreteWitnesses

attribute [local semireducible] Rat.add Rat.sub Rat.mul Rat.inv

/-- Claim C8 witness: the all-positive PnL series `[1, 2]` yields
profit factor `+inf`, win rate `1`, loss rate `0`. -/
theorem C8_win_loss_stats_witness :
    (([(1 : ℚ), 2] : List ℚ) ≠ [] ∧ ∀ x ∈ [(1 : ℚ), 2], 0 < x) ∧
    ((win_loss_stats (rseries [1, 2])).profit_factor = EF.pinf ∧
      (win_loss_stats (rseries [1, 2])).win_rate = EF.fin 1 ∧
      (win_loss_stats (rseries [1, 2])).loss_rate = EF.fin 0) :=
  ⟨⟨by decide, by decide⟩,
    (C8_win_loss_stats [1, 2]).2.2.2 (by decide) (by decide)⟩

end ConcreteWitnesses

/-! ## Claim C6: sign of the maximum drawdown -/

/-- Recursive reformulation of the `seriesMin` fold (for induction). -/
def seriesMinGo (acc : EF) : List EF → EF
  | [] => acc
  | x :: rest =>
      seriesMinGo
        (if x = EF.nan then acc else if acc = EF.nan then x else EF.min2 acc x)
        rest

theorem seriesMin_foldl_go (xs : List EF) :
    ∀ acc : EF,
      xs.foldl (fun acc x =>
        if x = EF.nan then acc else if acc = EF.nan then x else EF.min2 acc x) acc
      = seriesMinGo acc xs := by
  induction xs with
  | nil => intro _; rfl
  | cons x rest ih =>
      intro acc
      simp only [List.foldl_cons, seriesMinGo]
      exact ih _

theorem seriesMin_eq_go (xs : List EF) : seriesMin xs = seriesMinGo EF.nan xs :=
  seriesMin_foldl_go xs EF.nan

theorem EF.leb_trans {a b c : EF} (h1 : EF.leb a b = true)
    (h2 : EF.leb b c = true) : EF.leb a c = true := by
  cases a <;> cases b <;> cases c <;> simp_all [EF.leb]
  all_goals exact le_trans h1 h2

theorem EF.leb_total2 {a b : EF} (ha : a ≠ EF.nan) (hb : b ≠ EF.nan) :
    EF.leb a b = true ∨ EF.leb b a = true := by
  cases a <;> cases b <;> simp_all [EF.leb]
  all_goals exact le_total _ _

theorem EF.leb_ne_nan_left {a b : EF} (h : EF.leb a b = true) : a ≠ EF.nan := by
  cases a <;> simp_all [EF.leb]

theorem seriesMinGo_le (b : EF) :
    ∀ (xs : List EF) (acc : EF), EF.leb acc b = true →
      EF.leb (seriesMinGo acc xs) b = true := by
  intro xs
  induction xs with
  | nil => intro acc h; exact h
  | cons x rest ih =>
      intro acc h
      have hacc : acc ≠ EF.nan := EF.leb_ne_nan_left h
      by_cases hx : x = EF.nan
      · simpa [seriesMinGo, hx] using ih acc h
      · simp only [seriesMinGo, if_neg hx, if_neg hacc]
        apply ih
        show EF.leb (EF.min2 acc x) b = true
        rw [EF.min2]
        by_cases hax : EF.leb acc x = true
        · simpa [hax] using h
        · rw [if_neg hax]
          have hxa : EF.leb x acc = true := by
            rcases EF.leb_total2 hx hacc with hgood | hbad
            · exact hgood
            · exact absurd hbad hax
          exact EF.leb_trans hxa h

theorem seriesMinGo_mem_le (b : EF) :
    ∀ (xs : List EF) (acc : EF) (e : EF), e ∈ xs → e ≠ EF.nan →
      EF.leb e b = true → EF.leb (seriesMinGo acc xs) b = true := by
  intro xs
  induction xs with
  | nil => intro _ e he; exact absurd he (List.not_mem_nil e)
  | cons x rest ih =>
      intro acc e he hen heb
      rcases List.mem_cons.mp he with rfl | htail
      · simp only [seriesMinGo, if_neg hen]
        by_cases hacc : acc = EF.nan
        · rw [if_pos hacc]
          exact seriesMinGo_le b rest e heb
        · rw [if_neg hacc]
          apply seriesMinGo_le
          show EF.leb (EF.min2 acc e) b = true
          rw [EF.min2]
          by_cases hae : EF.leb acc e = true
          · rw [if_pos hae]
            exact EF.leb_trans hae heb
          · rw [if_neg hae]
            exact heb
      · exact ih _ e htail hen heb

theorem seriesMinGo_all_nan :
    ∀ (xs : List EF) (acc : EF), (∀ e ∈ xs, e = EF.nan) →
      seriesMinGo acc xs = acc := by
  intro xs
  induction xs with
  | nil => intro _ _; rfl
  | cons x rest ih =>
      intro acc hall
      have hx : x = EF.nan := hall x (List.mem_cons_self x rest)
      simp only [seriesMinGo, if_pos hx]
      exact ih acc (fun e he => hall e (List.mem_cons_of_mem x he))

theorem seriesMinGo_all_zero :
    ∀ (xs : List EF), (∀ e ∈ xs, e = EF.fin 0) →
      seriesMinGo (EF.fin 0) xs = EF.fin 0 := by
  intro xs
  induction xs with
  | nil => intro _; rfl
  | cons x rest ih =>
      intro hall
      have hx : x = EF.fin 0 := hall x (List.mem_cons_self x rest)
      subst hx
      show seriesMinGo (if EF.fin 0 = EF.nan then _ else
        if (EF.fin 0 : EF) = EF.nan then EF.fin 0 else EF.min2 (EF.fin 0) (EF.fin 0)) rest
        = EF.fin 0
      have : EF.min2 (EF.fin 0) (EF.fin 0) = EF.fin 0 := by
        simp [EF.min2]
      simp only [this]
      rw [if_neg (by simp), if_neg (by simp)]
      exact ih (fun e he => hall e (List.mem_cons_of_mem _ he))

/-- The running maximum of `max_drawdown` restricted to finite inputs. -/
def runMax (m : ℚ) : List ℚ → List ℚ
  | [] => []
  | x :: rest => max m x :: runMax (max m x) rest

theorem cummaxGo_rseries (xs : List ℚ) :
    ∀ m : ℚ, cummaxGo (EF.fin m) (rseries xs) = rseries (runMax m xs) := by
  induction xs with
  | nil => intro m; rfl
  | cons x rest ih =>
      intro m
      show cummaxGo (EF.fin m) (EF.fin x :: rseries rest) = _
      rw [cummaxGo, if_neg (EF.fin_ne_nan x)]
      have hmax : EF.max2 (EF.fin m) (EF.fin x) = EF.fin (max m x) := by
        rw [EF.max2, EF.leb_fin, max_def]
        by_cases h : m ≤ x
        · simp [h]
        · simp [h]
      rw [hmax, ih (max m x)]
      rfl

theorem cummax_rseries (x : ℚ) (xs : List ℚ) :
    cummax (rseries (x :: xs)) = rseries (x :: runMax x xs) := by
  show cummaxGo EF.ninf (EF.fin x :: rseries xs) = _
  rw [cummaxGo, if_neg (EF.fin_ne_nan x)]
  have h1 : EF.max2 EF.ninf (EF.fin x) = EF.fin x := rfl
  rw [h1, cummaxGo_rseries]
  rfl

/-- One drawdown entry on finite data: `value / peak - 1` with IEEE
division. -/
def ddQ (v m : ℚ) : EF := EF.sub (EF.div (EF.fin v) (EF.fin m)) (EF.fin 1)

theorem ddQ_ne_zero_denom (v m : ℚ) (hm : m ≠ 0) :
    ddQ v m = EF.fin (v / m - 1) := by
  rw [ddQ, EF.div_fin v m hm, EF.sub_fin]

theorem ddQ_self (v : ℚ) (hv : v ≠ 0) : ddQ v v = EF.fin 0 := by
  rw [ddQ_ne_zero_denom v v hv, div_self hv]
  norm_num

theorem ddQ_neg_zero (v : ℚ) (hv : v < 0) : ddQ v 0 = EF.ninf := by
  have h1 : ¬ (0 : ℚ) < v := not_lt.mpr (le_of_lt hv)
  simp [ddQ, EF.div, h1, hv, EF.sub, EF.neg, EF.add]

theorem ddQ_zero_zero : ddQ 0 0 = EF.nan := by
  simp [ddQ, EF.div, EF.sub, EF.neg, EF.add]

theorem max_drawdown_rseries (x : ℚ) (xs : List ℚ) :
    max_drawdown (rseries (x :: xs))
      = seriesMinGo EF.nan (ddQ x x :: List.zipWith ddQ xs (runMax x xs)) := by
  show seriesMin (List.zipWith _ (rseries (x :: xs)) (cummax (rseries (x :: xs)))) = _
  rw [cummax_rseries, seriesMin_eq_go]
  congr 1
  show List.zipWith _ (List.map EF.fin (x :: xs)) (List.map EF.fin (x :: runMax x xs)) = _
  rw [List.zipWith_map_left, List.zipWith_map_right]
  rfl

theorem dd_tail_witness :
    ∀ (xs : List ℚ), (∃ w ∈ xs, w ≠ 0) →
      ∃ e ∈ List.zipWith ddQ xs (runMax 0 xs),
        e ≠ EF.nan ∧ EF.leb e (EF.fin 0) = true := by
  intro xs
  induction xs with
  | nil =>
      rintro ⟨w, hw, _⟩
      exact absurd hw (List.not_mem_nil w)
  | cons w rest ih =>
      rintro ⟨v, hv, hvne⟩
      by_cases hw : w = 0
      · subst hw
        have hmax : max (0 : ℚ) 0 = 0 := by norm_num
        have hvrest : v ∈ rest := by
          rcases List.mem_cons.mp hv with rfl | h
          · exact absurd rfl hvne
          · exact h
        obtain ⟨e, he, hprop⟩ := ih ⟨v, hvrest, hvne⟩
        refine ⟨e, ?_, hprop⟩
        show e ∈ ddQ 0 (max 0 0) :: List.zipWith ddQ rest (runMax (max 0 0) rest)
        rw [hmax]
        exact List.mem_cons_of_mem _ he
      · rcases lt_or_gt_of_ne hw with hneg | hpos
        · have hmax : max (0 : ℚ) w = 0 := max_eq_left (le_of_lt hneg)
          refine ⟨EF.ninf, ?_, by simp, rfl⟩
          show EF.ninf ∈ ddQ w (max 0 w) :: List.zipWith ddQ rest (runMax (max 0 w) rest)
          rw [hmax, ← ddQ_neg_zero w hneg]
          exact List.mem_cons_self _ _
        · have hmax : max (0 : ℚ) w = w := max_eq_right (le_of_lt hpos)
          refine ⟨EF.fin 0, ?_, by simp, by simp [EF.leb]⟩
          show EF.fin 0 ∈ ddQ w (max 0 w) :: List.zipWith ddQ rest (runMax (max 0 w) rest)
          rw [hmax, ← ddQ_self w hw]
          exact List.mem_cons_self _ _

theorem max_drawdown_le_zero (xs : List ℚ) (hne : xs ≠ [])
    (hnz : ∃ v ∈ xs, v ≠ 0) :
    EF.leb (max_drawdown (rseries xs)) (EF.fin 0) = true := by
  obtain ⟨x, rest, rfl⟩ := List.exists_cons_of_ne_nil hne
  rw [max_drawdown_rseries]
  by_cases hx : x = 0
  · subst hx
    obtain ⟨v, hv, hvne⟩ := hnz
    have hvrest : v ∈ rest := by
      rcases List.mem_cons.mp hv with rfl | h
      · exact absurd rfl hvne
      · exact h
    obtain ⟨e, he, hen, heb⟩ := dd_tail_witness rest ⟨v, hvrest, hvne⟩
    exact seriesMinGo_mem_le (EF.fin 0) _ EF.nan e
      (List.mem_cons_of_mem _ he) hen heb
  · apply seriesMinGo_mem_le (EF.fin 0) _ EF.nan (EF.fin 0)
      (by rw [← ddQ_self x hx]; exact List.mem_cons_self _ _)
      (by simp) (by simp [EF.leb])

theorem runMax_const (c : ℚ) :
    ∀ rest : List ℚ, (∀ w ∈ rest, w = c) → runMax c rest = rest := by
  intro rest
  induction rest with
  | nil => intro _; rfl
  | cons w rr ih =>
      intro hall
      have hw : w = c := hall w (List.mem_cons_self w rr)
      subst hw
      show max w w :: runMax (max w w) rr = w :: rr
      rw [max_self]
      rw [ih (fun y hy => hall y (List.mem_cons_of_mem w hy))]

theorem zipWith_ddQ_const (c : ℚ) (hc : c ≠ 0) :
    ∀ rest : List ℚ, (∀ w ∈ rest, w = c) →
      ∀ e ∈ List.zipWith ddQ rest rest, e = EF.fin 0 := by
  intro rest
  induction rest with
  | nil => intro _ e he; exact absurd he (List.not_mem_nil e)
  | cons w rr ih =>
      intro hall e he
      have hw : w = c := hall w (List.mem_cons_self w rr)
      rcases List.mem_cons.mp he with rfl | htail
      · rw [hw]
        exact ddQ_self c hc
      · exact ih (fun y hy => hall y (List.mem_cons_of_mem w hy)) e htail

theorem max_drawdown_const_nonzero (xs : List ℚ) (hne : xs ≠ [])
    (hc : ∀ v ∈ xs, v = xs.headI) (h0 : xs.headI ≠ 0) :
    max_drawdown (rseries xs) = EF.fin 0 := by
  obtain ⟨x, rest, rfl⟩ := List.exists_cons_of_ne_nil hne
  have hx : (x :: rest).headI = x := rfl
  rw [hx] at hc h0
  have hrest : ∀ w ∈ rest, w = x :=
    fun w hw => hc w (List.mem_cons_of_mem x hw)
  rw [max_drawdown_rseries, runMax_const x rest hrest, ddQ_self x h0]
  show seriesMinGo EF.nan (EF.fin 0 :: List.zipWith ddQ rest rest) = EF.fin 0
  rw [seriesMinGo]
  rw [if_neg (by simp : ¬ (EF.fin 0 = EF.nan)), if_pos rfl]
  exact seriesMinGo_all_zero _ (zipWith_ddQ_const x h0 rest hrest)

theorem zipWith_ddQ_zero :
    ∀ rest : List ℚ, (∀ w ∈ rest, w = 0) →
      ∀ e ∈ List.zipWith ddQ rest rest, e = EF.nan := by
  intro rest
  induction rest with
  | nil => intro _ e he; exact absurd he (List.not_mem_nil e)
  | cons w rr ih =>
      intro hall e he
      have hw : w = 0 := hall w (List.mem_cons_self w rr)
      rcases List.mem_cons.mp he with rfl | htail
      · rw [hw]
        exact ddQ_zero_zero
      · exact ih (fun y hy => hall y (List.mem_cons_of_mem w hy)) e htail

theorem max_drawdown_const_zero (xs : List ℚ) (hne : xs ≠ [])
    (hc : ∀ v ∈ xs, v = xs.headI) (h0 : xs.headI = 0) :
    max_drawdown (rseries xs) = EF.nan := by
  obtain ⟨x, rest, rfl⟩ := List.exists_cons_of_ne_nil hne
  have hx : (x :: rest).headI = x := rfl
  rw [hx] at hc h0
  subst h0
  have hrest : ∀ w ∈ rest, w = (0 : ℚ) :=
    fun w hw => hc w (List.mem_cons_of_mem _ hw)
  rw [max_drawdown_rseries, runMax_const 0 rest hrest, ddQ_zero_zero]
  show seriesMinGo EF.nan (EF.nan :: List.zipWith ddQ rest rest) = EF.nan
  rw [seriesMinGo, if_pos rfl]
  exact seriesMinGo_all_nan _ EF.nan (zipWith_ddQ_zero rest hrest)

/-- Claim C6 (amended): on a non-empty finite cumulative-value series,
`max_drawdown` is `≤ 0` (possibly `-inf`) for every non-constant input
and exactly `0` for every constant input *with non-zero value*; the
all-zero constant series instead yields the `nan` sentinel (`0/0` at
every position). -/
theorem C6_amended (xs : List ℚ) (hne : xs ≠ []) :
    (¬ (∀ v ∈ xs, v = xs.headI) →
      EF.leb (max_drawdown (rseries xs)) (EF.fin 0) = true) ∧
    ((∀ v ∈ xs, v = xs.headI) → xs.headI ≠ 0 →
      max_drawdown (rseries xs) = EF.fin 0) ∧
    ((∀ v ∈ xs, v = xs.headI) → xs.headI = 0 →
      max_drawdown (rseries xs) = EF.nan) := by
  refine ⟨?_, max_drawdown_const_nonzero xs hne, max_drawdown_const_zero xs hne⟩
  intro hnotconst
  apply max_drawdown_le_zero xs hne
  by_contra hall
  push_neg at hall
  apply hnotconst
  intro v hv
  have hv0 : v = 0 := hall v hv
  have hh0 : xs.headI = 0 := by
    obtain ⟨x, rest, rfl⟩ := List.exists_cons_of_ne_nil hne
    exact hall x (List.mem_cons_self x rest)
  rw [hv0, hh0]

/-- Claim C6 witness: the amended statement at concrete inputs — the
non-constant series `[1, 2, 1]` has drawdown `≤ 0`, and the constant
non-zero series `[5, 5]` has drawdown exactly `0`. -/
theorem C6_amended_witness :
    (([(1 : ℚ), 2, 1] : List ℚ) ≠ [] ∧
      ¬ (∀ v ∈ [(1 : ℚ), 2, 1], v = ([(1 : ℚ), 2, 1] : List ℚ).headI)) ∧
    EF.leb (max_drawdown (rseries [1, 2, 1])) (EF.fin 0) = true ∧
    (([(5 : ℚ), 5] : List ℚ) ≠ [] ∧
      (∀ v ∈ [(5 : ℚ), 5], v = ([(5 : ℚ), 5] : List ℚ).headI) ∧
      ([(5 : ℚ), 5] : List ℚ).headI ≠ 0) ∧
    max_drawdown (rseries [5, 5]) = EF.fin 0 :=
  ⟨⟨by decide, by decide⟩,
    (C6_amended [1, 2, 1] (by decide)).1 (by decide),
    ⟨by decide, by decide, by decide⟩,
    (C6_amended [5, 5] (by decide)).2.1 (by decide) (by decide)⟩

/-! ## Claim C7: shared edge-case policy of the statistics library -/

/-- The rational excess series over which the source computes the Sharpe
volatility: the non-missing returns shifted by `rf/252` (pandas `std`
skips the `nan` entries). -/
def excessQ (rs : List EF) (rf : ℚ) : List ℚ :=
  ((dropna rs).map EF.toQ).map (fun x => x - rf / 252)

/-- The downside subset used by Sortino: the strictly negative excess
entries. -/
def downsideQ (rs : List EF) (rf : ℚ) : List ℚ :=
  (excessQ rs rf).filter (fun x => x < 0)

/-- The population standard deviation of `l` is below `ε` — stated on the
real square root, exactly as the source compares `series.std(ddof=0)`
against its `1e-12` threshold. -/
def stdBelow (l : List ℚ) (ε : ℚ) : Prop :=
  Real.sqrt ((ratVar l : ℚ) : ℝ) < ((ε : ℚ) : ℝ)

theorem stdBelow_iff_var_lt (l : List ℚ) (ε : ℚ) (hε : 0 < ε) :
    stdBelow l ε ↔ ratVar l < ε ^ 2 := by
  rw [stdBelow, Real.sqrt_lt' (by exact_mod_cast hε)]
  constructor
  · intro h
    exact_mod_cast h
  · intro h
    exact_mod_cast h

theorem guard_iff_dropna_nil (rs : List EF) :
    (rs.isEmpty || (dropna rs).isEmpty) = true ↔ dropna rs = [] := by
  constructor
  · intro h
    rcases Bool.or_eq_true_iff.mp h with h1 | h2
    · rw [List.isEmpty_iff.mp h1]
      rfl
    · exact List.isEmpty_iff.mp h2
  · intro h
    rw [Bool.or_eq_true_iff]
    exact Or.inr (List.isEmpty_iff.mpr h)

theorem popVar_of_dropna (xs : List EF) (l : List ℚ)
    (h : dropna xs = rseries l) :
    popVar xs = if l = [] then EF.nan else EF.fin (ratVar l) := by
  show (if (dropna xs).isEmpty then EF.nan
    else if (dropna xs).all EF.isFin
      then EF.fin (ratVar ((dropna xs).map EF.toQ)) else EF.nan) = _
  rw [h]
  by_cases hl : l = []
  · subst hl
    simp [rseries]
  · have h1 : (rseries l).isEmpty = false := by
      rw [List.isEmpty_eq_false_iff_exists_mem]
      obtain ⟨x, xs2, rfl⟩ := List.exists_cons_of_ne_nil hl
      exact ⟨EF.fin x, List.mem_cons_self _ _⟩
    rw [h1]
    have h2 : (rseries l).all EF.isFin = true := by
      rw [List.all_eq_true]
      intro x hx
      obtain ⟨q, _, rfl⟩ := List.mem_map.mp hx
      rfl
    have h3 : (rseries l).map EF.toQ = l := by
      rw [rseries, List.map_map]
      exact List.map_id'' (fun q => rfl) _
    rw [if_neg (by simp), h2, if_pos rfl, h3, if_neg hl]

theorem dropna_map_sub (rs : List EF) (c : ℚ) (h : finiteOrMissing rs) :
    dropna (rs.map (fun x => EF.sub x (EF.fin c)))
      = rseries (((dropna rs).map EF.toQ).map (fun x => x - c)) := by
  induction rs with
  | nil => rfl
  | cons x rest ih =>
      have hx := h x (List.mem_cons_self x rest)
      have hrest : finiteOrMissing rest :=
        fun y hy => h y (List.mem_cons_of_mem x hy)
      cases x with
      | nan =>
          have hsub : EF.sub EF.nan (EF.fin c) = EF.nan := rfl
          show dropna (EF.sub EF.nan (EF.fin c) :: rest.map _)
            = rseries (((dropna (EF.nan :: rest)).map EF.toQ).map _)
          rw [hsub]
          have h1 : dropna (EF.nan :: rest.map (fun x => EF.sub x (EF.fin c)))
              = dropna (rest.map (fun x => EF.sub x (EF.fin c))) := by
            simp [dropna, List.filter_cons]
          have h2 : dropna (EF.nan :: rest) = dropna rest := by
            simp [dropna, List.filter_cons]
          rw [h1, h2]
          exact ih hrest
      | pinf => exact absurd rfl (h EF.pinf (List.mem_cons_self _ rest)).1
      | ninf => exact absurd rfl (h EF.ninf (List.mem_cons_self _ rest)).2
      | fin q =>
          have hsub : EF.sub (EF.fin q) (EF.fin c) = EF.fin (q - c) := EF.sub_fin q c
          show dropna (EF.sub (EF.fin q) (EF.fin c) :: rest.map _)
            = rseries (((dropna (EF.fin q :: rest)).map EF.toQ).map _)
          rw [hsub]
          have h1 : dropna (EF.fin (q - c) :: rest.map (fun x => EF.sub x (EF.fin c)))
              = EF.fin (q - c) :: dropna (rest.map (fun x => EF.sub x (EF.fin c))) := by
            simp [dropna, List.filter_cons]
          have h2 : dropna (EF.fin q :: rest) = EF.fin q :: dropna rest := by
            simp [dropna, List.filter_cons]
          rw [h1, h2]
          show _ = EF.fin (q - c) :: rseries (((dropna rest).map EF.toQ).map _)
          rw [ih hrest]

theorem filter_neg_map_sub (rs : List EF) (c : ℚ) (h : finiteOrMissing rs) :
    (rs.map (fun x => EF.sub x (EF.fin c))).filter (fun x => EF.ltb x (EF.fin 0))
      = rseries ((((dropna rs).map EF.toQ).map (fun x => x - c)).filter
          (fun x => x < 0)) := by
  induction rs with
  | nil => rfl
  | cons x rest ih =>
      have hrest : finiteOrMissing rest :=
        fun y hy => h y (List.mem_cons_of_mem x hy)
      cases x with
      | nan =>
          have h2 : dropna (EF.nan :: rest) = dropna rest := by
            simp [dropna, List.filter_cons]
          show ((EF.sub EF.nan (EF.fin c) :: rest.map _).filter _) = _
          rw [h2, List.filter_cons]
          have : (EF.ltb (EF.sub EF.nan (EF.fin c)) (EF.fin 0)) = false := rfl
          rw [this]
          show (rest.map _).filter _ = _
          exact ih hrest
      | pinf => exact absurd rfl (h EF.pinf (List.mem_cons_self _ rest)).1
      | ninf => exact absurd rfl (h EF.ninf (List.mem_cons_self _ rest)).2
      | fin q =>
          have h2 : dropna (EF.fin q :: rest) = EF.fin q :: dropna rest := by
            simp [dropna, List.filter_cons]
          rw [h2]
          show ((EF.sub (EF.fin q) (EF.fin c) :: rest.map _).filter _)
            = rseries (((q :: (dropna rest).map EF.toQ).map
                (fun x => x - c)).filter (fun x => x < 0))
          rw [EF.sub_fin q c]
          by_cases hneg : q - c < 0
          · have hLcons : (EF.fin (q - c) :: rest.map
                (fun x => EF.sub x (EF.fin c))).filter
                  (fun x => EF.ltb x (EF.fin 0))
                = EF.fin (q - c) :: (rest.map (fun x => EF.sub x (EF.fin c))).filter
                    (fun x => EF.ltb x (EF.fin 0)) := by
              simp [List.filter_cons, EF.ltb, hneg]
            have hRcons : ((q :: (dropna rest).map EF.toQ).map
                (fun x => x - c)).filter (fun x => x < 0)
                = (q - c) :: (((dropna rest).map EF.toQ).map
                    (fun x => x - c)).filter (fun x => x < 0) := by
              simp [List.filter_cons, hneg]
            rw [hLcons, hRcons]
            show _ = EF.fin (q - c) :: rseries _
            rw [ih hrest]
          · have hLcons : (EF.fin (q - c) :: rest.map
                (fun x => EF.sub x (EF.fin c))).filter
                  (fun x => EF.ltb x (EF.fin 0))
                = (rest.map (fun x => EF.sub x (EF.fin c))).filter
                    (fun x => EF.ltb x (EF.fin 0)) := by
              simp [List.filter_cons, EF.ltb, hneg]
            have hRcons : ((q :: (dropna rest).map EF.toQ).map
                (fun x => x - c)).filter (fun x => x < 0)
                = (((dropna rest).map EF.toQ).map
                    (fun x => x - c)).filter (fun x => x < 0) := by
              simp [List.filter_cons, hneg]
            rw [hLcons, hRcons]
            exact ih hrest

theorem zip_dd_all_nan :
    ∀ (xs : List EF) (m : EF), (∀ x ∈ xs, x = EF.nan) →
      ∀ e ∈ List.zipWith (fun v mm => EF.sub (EF.div v mm) (EF.fin 1))
          xs (cummaxGo m xs), e = EF.nan := by
  intro xs
  induction xs with
  | nil => intro m _ e he; exact absurd he (List.not_mem_nil e)
  | cons x rest ih =>
      intro m hall e he
      have hx : x = EF.nan := hall x (List.mem_cons_self x rest)
      subst hx
      rw [cummaxGo, if_pos rfl] at he
      rcases List.mem_cons.mp he with rfl | htail
      · rfl
      · exact ih m (fun y hy => hall y (List.mem_cons_of_mem _ hy)) e htail

theorem max_drawdown_all_nan (xs : List EF) (h : ∀ x ∈ xs, x = EF.nan) :
    max_drawdown xs = EF.nan := by
  show seriesMin (List.zipWith _ xs (cummax xs)) = EF.nan
  rw [seriesMin_eq_go]
  exact seriesMinGo_all_nan _ EF.nan (zip_dd_all_nan xs EF.ninf h)

theorem ratVar_const (l : List ℚ) (x : ℚ) (hne : l ≠ [])
    (hall : ∀ y ∈ l, y = x) : ratVar l = 0 := by
  have hlen : (l.length : ℚ) ≠ 0 := by
    exact_mod_cast Nat.cast_ne_zero.mpr (by simpa [List.length_eq_zero] using hne)
  have hmean : ratMean l = x := by
    rw [ratMean, List.sum_eq_card_nsmul l x hall, nsmul_eq_mul]
    rw [mul_comm, mul_div_assoc, div_self hlen, mul_one]
  have hzero : (l.map (fun y => (y - ratMean l) ^ 2)).sum = 0 := by
    apply List.sum_eq_zero
    intro e he
    obtain ⟨y, hy, rfl⟩ := List.mem_map.mp he
    rw [hmean, hall y hy]
    ring
  rw [ratVar, hzero, zero_div]

theorem dropna_all_nan (rs : List EF) (h : dropna rs = []) :
    ∀ x ∈ rs, x = EF.nan := by
  intro x hx
  by_contra hne
  have : x ∈ dropna rs := List.mem_filter.mpr ⟨hx, by simpa using hne⟩
  rw [h] at this
  exact absurd this (List.not_mem_nil x)

theorem sharpe_ratio_eq (rs : List EF) (rf : ℚ) :
    sharpe_ratio rs rf
      = if (rs.isEmpty || (dropna rs).isEmpty) = true then none
        else if EF.ltb (popVar (rs.map (fun x => EF.sub x (EF.fin (rf / 252)))))
            (EF.fin eps2) = true then none
        else some ⟨seriesMean (rs.map (fun x => EF.sub x (EF.fin (rf / 252)))),
          popVar (rs.map (fun x => EF.sub x (EF.fin (rf / 252))))⟩ := rfl

theorem sortino_ratio_eq (rs : List EF) (rf : ℚ) :
    sortino_ratio rs rf
      = if (rs.isEmpty || (dropna rs).isEmpty) = true then none
        else if (popVar ((rs.map (fun x => EF.sub x (EF.fin (rf / 252)))).filter
              (fun x => EF.ltb x (EF.fin 0))) = EF.nan
            || EF.ltb (popVar ((rs.map (fun x => EF.sub x (EF.fin (rf / 252)))).filter
              (fun x => EF.ltb x (EF.fin 0)))) (EF.fin eps2)) = true then none
        else some ⟨seriesMean (rs.map (fun x => EF.sub x (EF.fin (rf / 252)))),
          popVar ((rs.map (fun x => EF.sub x (EF.fin (rf / 252)))).filter
            (fun x => EF.ltb x (EF.fin 0)))⟩ := rfl

theorem sharpe_none_iff (rs : List EF) (rf : ℚ) (h : finiteOrMissing rs) :
    sharpe_ratio rs rf = none ↔
      dropna rs = [] ∨ stdBelow (excessQ rs rf) (1 / 10 ^ 12) := by
  have hpv := popVar_of_dropna (rs.map (fun x => EF.sub x (EF.fin (rf / 252))))
      (excessQ rs rf) (dropna_map_sub rs (rf / 252) h)
  rw [sharpe_ratio_eq]
  by_cases hempty : dropna rs = []
  · rw [if_pos (guard_iff_dropna_nil rs |>.mpr hempty)]
    simp [hempty]
  · have hguard : ¬ ((rs.isEmpty || (dropna rs).isEmpty) = true) := by
      intro hc
      exact hempty ((guard_iff_dropna_nil rs).mp hc)
    rw [if_neg hguard]
    have hlq : excessQ rs rf ≠ [] := by
      intro hc
      apply hempty
      have hlen : (excessQ rs rf).length = (dropna rs).length := by
        simp [excessQ]
      rw [hc] at hlen
      exact List.length_eq_zero.mp hlen.symm
    rw [hpv, if_neg hlq]
    have heq : (EF.ltb (EF.fin (ratVar (excessQ rs rf))) (EF.fin eps2))
        = decide (ratVar (excessQ rs rf) < eps2) := rfl
    have hstd : stdBelow (excessQ rs rf) (1 / 10 ^ 12)
        ↔ ratVar (excessQ rs rf) < eps2 := by
      rw [stdBelow_iff_var_lt _ _ (by norm_num)]
      exact Iff.rfl
    by_cases hv : ratVar (excessQ rs rf) < eps2
    · rw [heq, if_pos (by simpa using hv)]
      exact iff_of_true rfl (Or.inr (hstd.mpr hv))
    · rw [heq, if_neg (by simpa using hv)]
      refine iff_of_false (by simp) ?_
      rintro (hc | hc)
      · exact hempty hc
      · exact hv (hstd.mp hc)

theorem sortino_none_iff (rs : List EF) (rf : ℚ) (h : finiteOrMissing rs) :
    sortino_ratio rs rf = none ↔
      dropna rs = [] ∨ downsideQ rs rf = [] ∨
        stdBelow (downsideQ rs rf) (1 / 10 ^ 12) := by
  have hfl := filter_neg_map_sub rs (rf / 252) h
  have hpv : popVar ((rs.map (fun x => EF.sub x (EF.fin (rf / 252)))).filter
        (fun x => EF.ltb x (EF.fin 0)))
      = if downsideQ rs rf = [] then EF.nan
        else EF.fin (ratVar (downsideQ rs rf)) := by
    rw [hfl]
    exact popVar_of_dropna _ _ (dropna_rseries _)
  have hstd : stdBelow (downsideQ rs rf) (1 / 10 ^ 12)
      ↔ ratVar (downsideQ rs rf) < eps2 := by
    rw [stdBelow_iff_var_lt _ _ (by norm_num)]
    exact Iff.rfl
  rw [sortino_ratio_eq]
  by_cases hempty : dropna rs = []
  · rw [if_pos (guard_iff_dropna_nil rs |>.mpr hempty)]
    exact iff_of_true rfl (Or.inl hempty)
  · have hguard : ¬ ((rs.isEmpty || (dropna rs).isEmpty) = true) := by
      intro hc
      exact hempty ((guard_iff_dropna_nil rs).mp hc)
    rw [if_neg hguard, hpv]
    by_cases hdq : downsideQ rs rf = []
    · rw [if_pos hdq]
      have : ((EF.nan = EF.nan || EF.ltb EF.nan (EF.fin eps2))) = true := by
        simp
      rw [if_pos this]
      exact iff_of_true rfl (Or.inr (Or.inl hdq))
    · rw [if_neg hdq]
      have hne : (EF.fin (ratVar (downsideQ rs rf)) = EF.nan) = False := by
        simp
      by_cases hv : ratVar (downsideQ rs rf) < eps2
      · have : ((EF.fin (ratVar (downsideQ rs rf)) = EF.nan
            || EF.ltb (EF.fin (ratVar (downsideQ rs rf))) (EF.fin eps2))) = true := by
          rw [Bool.or_eq_true_iff]
          right
          simpa [EF.ltb_fin] using hv
        rw [if_pos this]
        exact iff_of_true rfl (Or.inr (Or.inr (hstd.mpr hv)))
      · have : ¬ ((EF.fin (ratVar (downsideQ rs rf)) = EF.nan
            || EF.ltb (EF.fin (ratVar (downsideQ rs rf))) (EF.fin eps2)) = true) := by
          rw [Bool.or_eq_true_iff]
          rintro (hc | hc)
          · simp at hc
          · exact hv (by simpa [EF.ltb_fin] using hc)
        rw [if_neg this]
        refine iff_of_false (by simp) ?_
        rintro (hc | hc | hc)
        · exact hempty hc
        · exact hdq hc
        · exact hv (hstd.mp hc)

theorem calmar_ratio_eq (rs : List EF) :
    calmar_ratio rs
      = if (rs.isEmpty || (dropna rs).isEmpty) = true then none
        else if (max_drawdown (cumprod (rs.map (fun x => EF.add (EF.fin 1) x)))
              = EF.fin 0
            || max_drawdown (cumprod (rs.map (fun x => EF.add (EF.fin 1) x)))
              = EF.nan) = true then none
        else some ⟨(rs.map (fun x => EF.add (EF.fin 1) x)).foldl EF.mul (EF.fin 1),
          rs.length,
          max_drawdown (cumprod (rs.map (fun x => EF.add (EF.fin 1) x)))⟩ := rfl

theorem cumprod_ones (n : ℕ) :
    cumprodGo (EF.fin 1) (List.replicate n (EF.fin 1))
      = List.replicate n (EF.fin 1) := by
  induction n with
  | zero => rfl
  | succ k ih =>
      rw [List.replicate_succ]
      show EF.mul (EF.fin 1) (EF.fin 1)
          :: cumprodGo (EF.mul (EF.fin 1) (EF.fin 1)) (List.replicate k (EF.fin 1))
        = EF.fin 1 :: List.replicate k (EF.fin 1)
      have h1 : EF.mul (EF.fin 1) (EF.fin 1) = EF.fin 1 := by
        show EF.fin (1 * 1) = EF.fin 1
        norm_num
      rw [h1, ih]

theorem calmar_all_zero (rs : List EF) (h : ∀ x ∈ rs, x = EF.fin 0) :
    calmar_ratio rs = none := by
  by_cases hrs : rs = []
  · subst hrs
    rfl
  · have hdrop : dropna rs = rs :=
      List.filter_eq_self.mpr (fun a ha => by rw [h a ha]; simp)
    have hmap : rs.map (fun x => EF.add (EF.fin 1) x)
        = List.replicate rs.length (EF.fin 1) := by
      have hcongr : rs.map (fun x => EF.add (EF.fin 1) x)
          = rs.map (fun _ => EF.fin 1) := by
        apply List.map_congr_left
        intro a ha
        rw [h a ha]
        show EF.fin (1 + 0) = EF.fin 1
        norm_num
      rw [hcongr, List.map_const']
    obtain ⟨k, hk⟩ := Nat.exists_eq_succ_of_ne_zero
      (by simpa [List.length_eq_zero] using hrs : rs.length ≠ 0)
    have hrsr : List.replicate rs.length (EF.fin 1)
        = rseries (List.replicate rs.length 1) := by
      rw [rseries, List.map_replicate]
    have hmdd : max_drawdown (cumprod (rs.map (fun x => EF.add (EF.fin 1) x)))
        = EF.fin 0 := by
      rw [hmap]
      show max_drawdown (cumprodGo (EF.fin 1) (List.replicate rs.length (EF.fin 1)))
        = EF.fin 0
      rw [cumprod_ones, hrsr]
      apply max_drawdown_const_nonzero
      · rw [hk]
        simp [List.replicate_succ]
      · intro v hv
        have hv1 : v = 1 := (List.eq_of_mem_replicate hv)
        have hh : (List.replicate rs.length (1 : ℚ)).headI = 1 := by
          rw [hk, List.replicate_succ]
          rfl
        rw [hv1, hh]
      · rw [hk, List.replicate_succ]
        show (1 : ℚ) ≠ 0
        norm_num
    rw [calmar_ratio_eq]
    rw [if_neg (by
      rw [Bool.or_eq_true_iff]
      rintro (hc | hc)
      · exact hrs (List.isEmpty_iff.mp hc)
      · rw [hdrop] at hc
        exact hrs (List.isEmpty_iff.mp hc))]
    rw [if_pos (by rw [Bool.or_eq_true_iff]; left; simpa using hmdd)]

theorem excessQ_replicate (n : ℕ) (q rf : ℚ) :
    excessQ (rseries (List.replicate n q)) rf
      = List.replicate n (q - rf / 252) := by
  rw [excessQ, dropna_rseries, rseries, List.map_map, List.map_map]
  show (List.replicate n q).map (fun x => x - rf / 252) = _
  rw [List.map_replicate]

theorem finiteOrMissing_rseries (l : List ℚ) : finiteOrMissing (rseries l) := by
  intro x hx
  obtain ⟨q, _, rfl⟩ := List.mem_map.mp hx
  exact ⟨by simp, by simp⟩

/-- Claim C7: the shared edge-case policy of the statistics library.  On
an empty or all-missing return series every function yields the
undefined sentinel (never an exception — the embedding is total — and
never a silent `0`); `sharpe_ratio` yields the sentinel exactly when the
standard deviation of the excess returns is below `1e-12`;
`sortino_ratio` yields it exactly when the negative-excess subset is
empty or its standard deviation is below `1e-12` (in particular on every
all-equal-returns series, for both ratios); `calmar_ratio` yields it on
an all-zero (flat) return series; `win_loss_stats` and
`correlation_matrix` degrade to sentinel values on empty input. -/
theorem C7_edge_case_policy (rs : List EF) (rf cl : ℚ)
    (hfin : finiteOrMissing rs) :
    (dropna rs = [] →
      calculate_var rs cl = EF.nan ∧
      calculate_cvar rs cl = EF.nan ∧
      sharpe_ratio rs rf = none ∧
      sortino_ratio rs rf = none ∧
      calmar_ratio rs = none ∧
      max_drawdown rs = EF.nan) ∧
    (sharpe_ratio rs rf = none ↔
      dropna rs = [] ∨ stdBelow (excessQ rs rf) (1 / 10 ^ 12)) ∧
    (sortino_ratio rs rf = none ↔
      dropna rs = [] ∨ downsideQ rs rf = [] ∨
        stdBelow (downsideQ rs rf) (1 / 10 ^ 12)) ∧
    ((∀ x ∈ rs, x = EF.fin 0) → calmar_ratio rs = none) ∧
    (∀ (n : ℕ) (q : ℚ), 0 < n →
      sharpe_ratio (rseries (List.replicate n q)) rf = none ∧
      sortino_ratio (rseries (List.replicate n q)) rf = none) ∧
    win_loss_stats [] = ⟨EF.nan, EF.nan, EF.nan⟩ ∧
    correlation_matrix [] = [] := by
  refine ⟨?_, sharpe_none_iff rs rf hfin, sortino_none_iff rs rf hfin,
    calmar_all_zero rs, ?_, by decide, rfl⟩
  · intro hemp
    have hguard : (rs.isEmpty || (dropna rs).isEmpty) = true :=
      (guard_iff_dropna_nil rs).mpr hemp
    refine ⟨?_, ?_, ?_, ?_, ?_, max_drawdown_all_nan rs (dropna_all_nan rs hemp)⟩
    · show (if (rs.isEmpty || (dropna rs).isEmpty) = true then EF.nan else _) = EF.nan
      rw [if_pos hguard]
    · show (if (rs.isEmpty || (dropna rs).isEmpty) = true then EF.nan else _) = EF.nan
      rw [if_pos hguard]
    · rw [sharpe_ratio_eq, if_pos hguard]
    · rw [sortino_ratio_eq, if_pos hguard]
    · rw [calmar_ratio_eq, if_pos hguard]
  · intro n q hn
    have hne : List.replicate n (q - rf / 252) ≠ [] := by
      intro hc
      have := congrArg List.length hc
      simp at this
      omega
    have hvar : ratVar (List.replicate n (q - rf / 252)) = 0 :=
      ratVar_const _ (q - rf / 252) hne
        (fun y hy => List.eq_of_mem_replicate hy)
    have hstd : stdBelow (List.replicate n (q - rf / 252)) (1 / 10 ^ 12) := by
      rw [stdBelow_iff_var_lt _ _ (by norm_num), hvar]
      positivity
    constructor
    · rw [sharpe_none_iff _ rf (finiteOrMissing_rseries _)]
      right
      rw [excessQ_replicate]
      exact hstd
    · rw [sortino_none_iff _ rf (finiteOrMissing_rseries _)]
      by_cases hneg : q - rf / 252 < 0
      · right; right
        show stdBelow (downsideQ (rseries (List.replicate n q)) rf) (1 / 10 ^ 12)
        have hdq : downsideQ (rseries (List.replicate n q)) rf
            = List.replicate n (q - rf / 252) := by
          rw [downsideQ, excessQ_replicate]
          apply List.filter_eq_self.mpr
          intro a ha
          rw [List.eq_of_mem_replicate ha]
          simpa using hneg
        rw [hdq]
        exact hstd
      · right; left
        show downsideQ (rseries (List.replicate n q)) rf = []
        rw [downsideQ, excessQ_replicate]
        apply List.filter_eq_nil_iff.mpr
        intro a ha
        rw [List.eq_of_mem_replicate ha]
        simpa using hneg

section MoreConcreteWitnesses

attribute [local semireducible] Rat.add Rat.sub Rat.mul Rat.inv

/-- Claim C7 witness: the edge-case policy at concrete inputs — the
all-missing series `[nan]` sends every statistic to the sentinel, and
the constructed all-equal-returns series `replicate 3 (1/100)` sends
Sharpe and Sortino to the sentinel. -/
theorem C7_edge_case_policy_witness :
    (finiteOrMissing [EF.nan] ∧ dropna [EF.nan] = [] ∧ (0 : ℕ) < 3) ∧
    (calculate_var [EF.nan] (95 / 100) = EF.nan ∧
      calculate_cvar [EF.nan] (95 / 100) = EF.nan ∧
      sharpe_ratio [EF.nan] 0 = none ∧
      sortino_ratio [EF.nan] 0 = none ∧
      calmar_ratio [EF.nan] = none ∧
      max_drawdown [EF.nan] = EF.nan) ∧
    (sharpe_ratio (rseries (List.replicate 3 (1 / 100))) 0 = none ∧
      sortino_ratio (rseries (List.replicate 3 (1 / 100))) 0 = none) :=
  ⟨⟨by decide, by decide, by decide⟩,
    (C7_edge_case_policy [EF.nan] 0 (95 / 100) (by decide)).1 (by decide),
    (C7_edge_case_policy [EF.nan] 0 (95 / 100) (by decide)).2.2.2.2.1
      3 (1 / 100) (by decide)⟩

end MoreConcreteWitnesses

/-! ## Claim C10: CVaR is defined and bounded by VaR -/

theorem dropna_eq_rseries (rs : List EF) (h : finiteOrMissing rs) :
    dropna rs = rseries ((dropna rs).map EF.toQ) := by
  rw [rseries, List.map_map]
  have hpt : ∀ x ∈ dropna rs, (EF.fin ∘ EF.toQ) x = id x := by
    intro x hx
    have hxrs : x ∈ rs := (List.mem_filter.mp hx).1
    have hxnan : x ≠ EF.nan := by simpa using (List.mem_filter.mp hx).2
    rcases h x hxrs with ⟨hp, hn⟩
    cases x with
    | nan => exact absurd rfl hxnan
    | pinf => exact absurd rfl hp
    | ninf => exact absurd rfl hn
    | fin q => rfl
  rw [List.map_congr_left hpt, List.map_id]

theorem orderedInsert_rseries (a : ℚ) :
    ∀ l : List ℚ,
      (rseries l).orderedInsert (fun x y => sortLeb x y = true) (EF.fin a)
        = rseries (l.orderedInsert (· ≤ ·) a) := by
  intro l
  induction l with
  | nil => rfl
  | cons b rest ih =>
      show List.orderedInsert _ (EF.fin a) (EF.fin b :: rseries rest)
        = rseries ((b :: rest).orderedInsert (· ≤ ·) a)
      rw [List.orderedInsert, List.orderedInsert]
      by_cases hab : a ≤ b
      · rw [if_pos (by simpa [sortLeb, EF.leb] using hab), if_pos hab]
        rfl
      · rw [if_neg (by simpa [sortLeb, EF.leb] using hab), if_neg hab]
        show EF.fin b :: List.orderedInsert _ (EF.fin a) (rseries rest) = _
        rw [ih]
        rfl

theorem sortSeries_rseries (l : List ℚ) :
    sortSeries (rseries l) = rseries (l.insertionSort (· ≤ ·)) := by
  induction l with
  | nil => rfl
  | cons b rest ih =>
      show List.insertionSort _ (EF.fin b :: rseries rest) = _
      rw [List.insertionSort, List.insertionSort]
      rw [show (List.insertionSort (fun x y => sortLeb x y = true) (rseries rest)
          = sortSeries (rseries rest)) from rfl]
      rw [ih]
      exact orderedInsert_rseries b _

theorem percentileOfSorted_fin_bound (ss : List ℚ) (p : ℚ)
    (hs : ss.Sorted (· ≤ ·)) (hne : ss ≠ []) (hp0 : 0 ≤ p) (hp1 : p ≤ 100) :
    ∃ v : ℚ, percentileOfSorted (rseries ss) p = EF.fin v ∧ ss.headI ≤ v := by
  have hlen : (rseries ss).length = ss.length := List.length_map _ _
  have hn1 : 1 ≤ (rseries ss).length := by
    rw [hlen]
    exact List.length_pos.mpr hne
  set n := (rseries ss).length with hn
  set h : ℚ := p / 100 * ((n : ℚ) - 1) with hh
  have hh0 : 0 ≤ h := by
    apply mul_nonneg (div_nonneg hp0 (by norm_num))
    have : (1 : ℚ) ≤ (n : ℚ) := by exact_mod_cast hn1
    linarith
  have hhn : h ≤ (n : ℚ) - 1 := by
    have hfrac : p / 100 ≤ 1 := by
      apply div_le_one_of_le₀ hp1 (by norm_num)
    have hnn : (0 : ℚ) ≤ (n : ℚ) - 1 := by
      have : (1 : ℚ) ≤ (n : ℚ) := by exact_mod_cast hn1
      linarith
    calc h = p / 100 * ((n : ℚ) - 1) := rfl
    _ ≤ 1 * ((n : ℚ) - 1) := by
        apply mul_le_mul_of_nonneg_right hfrac hnn
    _ = (n : ℚ) - 1 := one_mul _
  have hfl0 : 0 ≤ h.floor := Int.floor_nonneg.mpr hh0
  set lo : ℕ := h.floor.toNat with hlo
  have hloQ : (lo : ℚ) = (h.floor : ℚ) := by
    rw [hlo]
    exact_mod_cast congrArg (fun z : ℤ => (z : ℚ)) (Int.toNat_of_nonneg hfl0)
  have hlole : (lo : ℚ) ≤ h := by
    rw [hloQ]
    exact Int.floor_le h
  have hlon : lo < n := by
    have h1 : (lo : ℚ) ≤ (n : ℚ) - 1 := le_trans hlole hhn
    have h2 : (lo : ℚ) < (n : ℚ) := by linarith
    exact_mod_cast h2
  have hlonss : lo < ss.length := by
    rw [← hlen]
    exact hlon
  have hfrac0 : 0 ≤ h - (h.floor : ℚ) := sub_nonneg.mpr (Int.floor_le h)
  have hget : ∀ (i : ℕ) (hi : i < ss.length) (d : EF),
      (rseries ss).getD i d = EF.fin (ss.get ⟨i, hi⟩) := by
    intro i hi d
    have hi2 : i < (rseries ss).length := by
      simpa [rseries] using hi
    rw [List.getD_eq_getElem _ _ hi2]
    simp [rseries]
  have hhead : ss.headI = ss.get ⟨0, List.length_pos.mpr hne⟩ := by
    obtain ⟨x, rest, rfl⟩ := List.exists_cons_of_ne_nil hne
    rfl
  have hsorted : ∀ (i j : ℕ) (hi : i < ss.length) (hj : j < ss.length), i ≤ j →
      ss.get ⟨i, hi⟩ ≤ ss.get ⟨j, hj⟩ := by
    intro i j hi hj hij
    exact hs.rel_get_of_le (by exact_mod_cast hij)
  by_cases hlast : lo + 1 < n
  · have hlastss : lo + 1 < ss.length := by rw [← hlen]; exact hlast
    refine ⟨ss.get ⟨lo, hlonss⟩ + (h - (h.floor : ℚ))
      * (ss.get ⟨lo + 1, hlastss⟩ - ss.get ⟨lo, hlonss⟩), ?_, ?_⟩
    · show EF.add ((rseries ss).getD lo EF.nan)
        (EF.mul (EF.fin (h - (h.floor : ℚ)))
          (EF.sub ((rseries ss).getD (lo + 1) ((rseries ss).getD lo EF.nan))
            ((rseries ss).getD lo EF.nan))) = _
      rw [hget lo hlonss, hget (lo + 1) hlastss, EF.sub_fin]
      rfl
    · have h1 : ss.get ⟨0, List.length_pos.mpr hne⟩ ≤ ss.get ⟨lo, hlonss⟩ :=
        hsorted 0 lo _ _ (by omega)
      have h2 : ss.get ⟨lo, hlonss⟩ ≤ ss.get ⟨lo + 1, hlastss⟩ :=
        hsorted lo (lo + 1) _ _ (by omega)
      have h3 : 0 ≤ (h - (h.floor : ℚ))
          * (ss.get ⟨lo + 1, hlastss⟩ - ss.get ⟨lo, hlonss⟩) :=
        mul_nonneg hfrac0 (by linarith)
      rw [hhead]
      linarith
  · refine ⟨ss.get ⟨lo, hlonss⟩, ?_, ?_⟩
    · show EF.add ((rseries ss).getD lo EF.nan)
        (EF.mul (EF.fin (h - (h.floor : ℚ)))
          (EF.sub ((rseries ss).getD (lo + 1) ((rseries ss).getD lo EF.nan))
            ((rseries ss).getD lo EF.nan))) = _
      have hout : (rseries ss).getD (lo + 1) ((rseries ss).getD lo EF.nan)
          = (rseries ss).getD lo EF.nan := by
        apply List.getD_eq_default
        omega
      rw [hout, hget lo hlonss, EF.sub_fin, sub_self]
      show EF.add (EF.fin _) (EF.fin ((h - (h.floor : ℚ)) * 0)) = _
      rw [mul_zero, EF.add_fin, add_zero]
    · rw [hhead]
      exact hsorted 0 lo _ _ (by omega)

theorem calculate_var_fin (rs : List EF) (cl : ℚ) (h : finiteOrMissing rs)
    (hne : dropna rs ≠ []) (hcl0 : 0 ≤ cl) (hcl1 : cl ≤ 1) :
    ∃ v : ℚ, calculate_var rs cl = EF.fin v ∧
      ∃ q : ℚ, EF.fin q ∈ rs ∧ q ≤ v := by
  have hdr : dropna rs = rseries ((dropna rs).map EF.toQ) := dropna_eq_rseries rs h
  set ds := (dropna rs).map EF.toQ with hds
  have hdsne : ds ≠ [] := by
    intro hc
    apply hne
    rw [hdr, hc]
    rfl
  have hguard : ¬ ((rs.isEmpty || (dropna rs).isEmpty) = true) := by
    intro hc
    exact hne ((guard_iff_dropna_nil rs).mp hc)
  have hveq : calculate_var rs cl = npPercentile (dropna rs) ((1 - cl) * 100) := by
    show (if (rs.isEmpty || (dropna rs).isEmpty) = true then EF.nan
      else npPercentile (dropna rs) ((1 - cl) * 100)) = _
    rw [if_neg hguard]
  set ss := ds.insertionSort (· ≤ ·) with hss
  have hsorted : ss.Sorted (· ≤ ·) := List.sorted_insertionSort _ _
  have hperm : ss.Perm ds := List.perm_insertionSort _ _
  have hssne : ss ≠ [] := by
    intro hc
    apply hdsne
    apply List.length_eq_zero.mp
    rw [← hperm.length_eq, hc]
    rfl
  have hp0 : 0 ≤ (1 - cl) * 100 := mul_nonneg (by linarith) (by norm_num)
  have hp1 : (1 - cl) * 100 ≤ 100 := by nlinarith
  obtain ⟨v, hvp, hvb⟩ :=
    percentileOfSorted_fin_bound ss ((1 - cl) * 100) hsorted hssne hp0 hp1
  refine ⟨v, ?_, ss.headI, ?_, hvb⟩
  · rw [hveq]
    show percentileOfSorted (sortSeries (dropna rs)) _ = _
    rw [hdr, sortSeries_rseries]
    exact hvp
  · have hmem : ss.headI ∈ ss := by
      obtain ⟨a, t, hcons⟩ := List.exists_cons_of_ne_nil hssne
      rw [hcons]
      exact List.mem_cons_self a t
    have hmemds : ss.headI ∈ ds := hperm.mem_iff.mp hmem
    have hmemdr : EF.fin ss.headI ∈ rseries ds := List.mem_map_of_mem _ hmemds
    rw [← hdr] at hmemdr
    exact (List.mem_filter.mp hmemdr).1

theorem filter_leb_rseries (rs : List EF) (v : ℚ) (h : finiteOrMissing rs) :
    ∃ cs : List ℚ, rs.filter (fun x => EF.leb x (EF.fin v)) = rseries cs ∧
      ∀ q ∈ cs, q ≤ v := by
  induction rs with
  | nil => exact ⟨[], rfl, by simp⟩
  | cons x rest ih =>
      have hrest : finiteOrMissing rest :=
        fun y hy => h y (List.mem_cons_of_mem x hy)
      obtain ⟨cs, hcs, hle⟩ := ih hrest
      cases x with
      | nan =>
          refine ⟨cs, ?_, hle⟩
          rw [List.filter_cons]
          have hfalse : (EF.leb EF.nan (EF.fin v)) = false := rfl
          rw [hfalse]
          simpa using hcs
      | pinf => exact absurd rfl (h EF.pinf (List.mem_cons_self _ rest)).1
      | ninf => exact absurd rfl (h EF.ninf (List.mem_cons_self _ rest)).2
      | fin q =>
          by_cases hq : q ≤ v
          · refine ⟨q :: cs, ?_, ?_⟩
            · rw [List.filter_cons]
              have htrue : (EF.leb (EF.fin q) (EF.fin v)) = true := by
                simpa [EF.leb_fin] using hq
              rw [htrue]
              show EF.fin q :: rest.filter _ = EF.fin q :: rseries cs
              rw [hcs]
            · intro y hy
              rcases List.mem_cons.mp hy with rfl | htail
              · exact hq
              · exact hle y htail
          · refine ⟨cs, ?_, hle⟩
            rw [List.filter_cons]
            have hfalse : (EF.leb (EF.fin q) (EF.fin v)) = false := by
              simpa [EF.leb_fin] using hq
            rw [hfalse]
            simpa using hcs

theorem seriesMean_le (cs : List ℚ) (v : ℚ) (hne : cs ≠ [])
    (hle : ∀ q ∈ cs, q ≤ v) :
    ∃ m : ℚ, seriesMean (rseries cs) = EF.fin m ∧ m ≤ v := by
  refine ⟨cs.sum / cs.length, seriesMean_rseries cs hne, ?_⟩
  have hlen0 : 0 < (cs.length : ℚ) := by
    have : 0 < cs.length := List.length_pos.mpr hne
    exact_mod_cast this
  rw [div_le_iff₀ hlen0]
  have hsum := List.sum_le_card_nsmul cs v hle
  rw [nsmul_eq_mul] at hsum
  linarith

theorem calculate_cvar_eq (rs : List EF) (cl : ℚ) :
    calculate_cvar rs cl
      = if (rs.isEmpty || (dropna rs).isEmpty) = true then EF.nan
        else if (rs.filter (fun x => EF.leb x (calculate_var rs cl))).isEmpty = true
          then EF.nan
        else seriesMean (rs.filter (fun x => EF.leb x (calculate_var rs cl))) := rfl

/-- Claim C10: on every return series with at least one non-missing
(finite) value, CVaR is defined (the guard for "no returns at or below
VaR" is unreachable: the minimum non-missing return is always `<=` the
linear-interpolated percentile) and `CVaR <= VaR`: the mean of the
selected subset is bounded by the VaR threshold. -/
theorem C10_cvar_defined_and_le_var (rs : List EF) (cl : ℚ)
    (hfin : finiteOrMissing rs) (hne : ∃ x ∈ rs, x ≠ EF.nan)
    (hcl0 : 0 ≤ cl) (hcl1 : cl ≤ 1) :
    ∃ v c : ℚ, calculate_var rs cl = EF.fin v ∧
      calculate_cvar rs cl = EF.fin c ∧ c ≤ v ∧
      rs.filter (fun x => EF.leb x (calculate_var rs cl)) ≠ [] := by
  have hdne : dropna rs ≠ [] := by
    obtain ⟨x, hx, hxn⟩ := hne
    intro hc
    have hmem : x ∈ dropna rs := List.mem_filter.mpr ⟨hx, by simpa using hxn⟩
    rw [hc] at hmem
    exact absurd hmem (List.not_mem_nil x)
  obtain ⟨v, hv, q0, hq0mem, hq0le⟩ := calculate_var_fin rs cl hfin hdne hcl0 hcl1
  obtain ⟨cs, hcs, hcsle⟩ := filter_leb_rseries rs v hfin
  have hfiltereq : rs.filter (fun x => EF.leb x (calculate_var rs cl))
      = rseries cs := by
    rw [hv]
    exact hcs
  have hq0sel : EF.fin q0 ∈ rseries cs := by
    rw [← hcs]
    exact List.mem_filter.mpr ⟨hq0mem, by simpa [EF.leb_fin] using hq0le⟩
  have hcsne : cs ≠ [] := by
    intro hc
    rw [hc] at hq0sel
    exact absurd hq0sel (List.not_mem_nil _)
  have hrne : rseries cs ≠ [] := by
    intro hc
    exact hcsne (List.map_eq_nil_iff.mp hc)
  obtain ⟨m, hm, hmle⟩ := seriesMean_le cs v hcsne hcsle
  refine ⟨v, m, hv, ?_, hmle, ?_⟩
  · rw [calculate_cvar_eq]
    rw [if_neg (fun hc => hdne ((guard_iff_dropna_nil rs).mp hc))]
    rw [hfiltereq]
    rw [if_neg (by simpa [List.isEmpty_iff] using hrne)]
    exact hm
  · rw [hfiltereq]
    exact hrne

section FinalConcreteWitnesses

attribute [local semireducible] Rat.add Rat.sub Rat.mul Rat.inv

/-- Claim C10 witness: the CVaR/VaR relation at a concrete input — the
return series `[1/10, nan, -1/5]` at the default `0.95` confidence
level. -/
theorem C10_cvar_defined_and_le_var_witness :
    (finiteOrMissing [EF.fin (1 / 10), EF.nan, EF.fin (-1 / 5)] ∧
      (∃ x ∈ [EF.fin (1 / 10), EF.nan, EF.fin (-1 / 5)], x ≠ EF.nan) ∧
      (0 : ℚ) ≤ 95 / 100 ∧ (95 : ℚ) / 100 ≤ 1) ∧
    ∃ v c : ℚ,
      calculate_var [EF.fin (1 / 10), EF.nan, EF.fin (-1 / 5)] (95 / 100)
        = EF.fin v ∧
      calculate_cvar [EF.fin (1 / 10), EF.nan, EF.fin (-1 / 5)] (95 / 100)
        = EF.fin c ∧ c ≤ v ∧
      ([EF.fin (1 / 10), EF.nan, EF.fin (-1 / 5)].filter
        (fun x => EF.leb x (calculate_var
          [EF.fin (1 / 10), EF.nan, EF.fin (-1 / 5)] (95 / 100)))) ≠ [] :=
  ⟨⟨by decide, by decide, by norm_num, by norm_num⟩,
    C10_cvar_defined_and_le_var [EF.fin (1 / 10), EF.nan, EF.fin (-1 / 5)]
      (95 / 100) (by decide) (by decide) (by norm_num) (by norm_num)⟩

end FinalConcreteWitnesses

/-! ## Claim C9: the correlation matrix -/

/-- A wide-table cell that is either missing or a (positive) finite
price — the shape of real price data (§3: close prices are positive
reals; a ticker missing at a timestamp pivots to `nan`). -/
def posPriceB : EF → Bool
  | EF.nan => true
  | EF.fin q => decide (0 < q)
  | _ => false

/-- The `i`-th cleaned (pct-change + row-dropped) return column. -/
def colAt (cols : List (List EF)) (i : ℕ) : List EF :=
  (cleanedCols cols).getD i []

/-- The `(i, j)` cell of the correlation matrix. -/
def entryAt (cols : List (List EF)) (i j : ℕ) : CorrEntry :=
  ((correlation_matrix cols).getD i []).getD j CorrEntry.undef

/-- A `CorrEntry` represents the Pearson value `cov / sqrt varProd`; it
equals `1` exactly when the covariance is positive and its square equals
the variance product (see `corr_value_one_iff`). -/
def CorrEntry.isOne : CorrEntry → Prop
  | CorrEntry.undef => False
  | CorrEntry.corr c p => 0 < c ∧ c ^ 2 = p

instance : DecidablePred CorrEntry.isOne
  | CorrEntry.undef => isFalse id
  | CorrEntry.corr c p => inferInstanceAs (Decidable (0 < c ∧ c ^ 2 = p))

/-- Justification that `CorrEntry.isOne` captures "the Pearson
correlation equals 1": for a positive variance product `p`, the real
value `c / sqrt p` is `1` iff `0 < c` and `c ^ 2 = p`. -/
theorem corr_value_one_iff (c p : ℚ) (hp : 0 < p) :
    ((c : ℝ) / Real.sqrt ((p : ℚ) : ℝ) = 1) ↔ (0 < c ∧ c ^ 2 = p) := by
  have hpR : (0 : ℝ) < ((p : ℚ) : ℝ) := by exact_mod_cast hp
  have hsq : 0 < Real.sqrt ((p : ℚ) : ℝ) := Real.sqrt_pos.mpr hpR
  constructor
  · intro h
    have hc : (c : ℝ) = Real.sqrt ((p : ℚ) : ℝ) := by
      field_simp at h
      linarith
    constructor
    · have : (0 : ℝ) < (c : ℝ) := hc ▸ hsq
      exact_mod_cast this
    · have h2 : ((c : ℚ) : ℝ) ^ 2 = ((p : ℚ) : ℝ) := by
        rw [hc, Real.sq_sqrt hpR.le]
      exact_mod_cast h2
  · rintro ⟨hc0, hc2⟩
    have hcR : (0 : ℝ) ≤ (c : ℝ) := by exact_mod_cast hc0.le
    have h2 : ((p : ℚ) : ℝ) = ((c : ℚ) : ℝ) ^ 2 := by exact_mod_cast hc2.symm
    rw [h2, Real.sqrt_sq hcR]
    have hcne : (c : ℝ) ≠ 0 := by
      have : (0 : ℝ) < (c : ℝ) := by exact_mod_cast hc0
      linarith
    field_simp

theorem EF.mul_comm2 (a b : EF) : EF.mul a b = EF.mul b a := by
  cases a <;> cases b <;> simp [EF.mul, mul_comm]

theorem zipWith_mul_comm (mx my : EF) :
    ∀ (x y : List EF),
      List.zipWith (fun a b => EF.mul (EF.sub a mx) (EF.sub b my)) x y
        = List.zipWith (fun a b => EF.mul (EF.sub a my) (EF.sub b mx)) y x := by
  intro x
  induction x with
  | nil => intro y; cases y <;> rfl
  | cons a xs ih =>
      intro y
      cases y with
      | nil => rfl
      | cons b ys =>
          show EF.mul (EF.sub a mx) (EF.sub b my) :: _
            = EF.mul (EF.sub b my) (EF.sub a mx) :: _
          rw [EF.mul_comm2, ih]

theorem covE_comm (x y : List EF) : covE x y = covE y x := by
  rw [covE, covE]
  exact congrArg seriesMean (zipWith_mul_comm (seriesMean x) (seriesMean y) x y)

theorem corrEntry_comm (x y : List EF) : corrEntry x y = corrEntry y x := by
  rw [corrEntry, corrEntry, covE_comm x y, EF.mul_comm2 (covE x x) (covE y y)]

theorem zipWith_fin (g : ℚ → ℚ → ℚ) (f : EF → EF → EF)
    (hfg : ∀ a b : ℚ, f (EF.fin a) (EF.fin b) = EF.fin (g a b)) :
    ∀ (l1 l2 : List ℚ),
      List.zipWith f (rseries l1) (rseries l2) = rseries (List.zipWith g l1 l2) := by
  intro l1
  induction l1 with
  | nil => intro l2; cases l2 <;> rfl
  | cons a xs ih =>
      intro l2
      cases l2 with
      | nil => rfl
      | cons b ys =>
          show f (EF.fin a) (EF.fin b) :: List.zipWith f (rseries xs) (rseries ys)
            = EF.fin (g a b) :: rseries (List.zipWith g xs ys)
          rw [hfg, ih]

theorem covE_rseries (l1 l2 : List ℚ) (h1 : l1 ≠ []) (h2 : l2 ≠ []) :
    covE (rseries l1) (rseries l2)
      = EF.fin ((List.zipWith (fun a b => (a - ratMean l1) * (b - ratMean l2)) l1 l2).sum
          / (List.zipWith (fun a b => (a - ratMean l1) * (b - ratMean l2)) l1 l2).length) := by
  rw [covE, seriesMean_rseries l1 h1, seriesMean_rseries l2 h2]
  have hz := zipWith_fin
    (fun a b => (a - ratMean l1) * (b - ratMean l2))
    (fun a b => EF.mul (EF.sub a (EF.fin (l1.sum / l1.length)))
      (EF.sub b (EF.fin (l2.sum / l2.length))))
    (fun a b => by simp only [EF.sub_fin]; rfl) l1 l2
  rw [hz]
  apply seriesMean_rseries
  intro hc
  rcases List.zipWith_eq_nil_iff.mp hc with h | h
  · exact h1 h
  · exact h2 h

theorem covE_self (l : List ℚ) (h : l ≠ []) :
    covE (rseries l) (rseries l) = EF.fin (ratVar l) := by
  rw [covE, seriesMean_rseries l h]
  have hz := zipWith_fin
    (fun a b => (a - ratMean l) * (b - ratMean l))
    (fun a b => EF.mul (EF.sub a (EF.fin (l.sum / l.length)))
      (EF.sub b (EF.fin (l.sum / l.length))))
    (fun a b => by simp only [EF.sub_fin]; rfl) l l
  rw [hz, List.zipWith_same]
  have hmap : l.map (fun a => (a - ratMean l) * (a - ratMean l))
      = l.map (fun a => (a - ratMean l) ^ 2) := by
    apply List.map_congr_left
    intro a _
    rw [sq]
  rw [hmap]
  rw [seriesMean_rseries _ (by simpa using h)]
  rw [ratVar, List.length_map]

theorem sum_pos_of_mem_pos :
    ∀ (l : List ℚ), (∀ x ∈ l, 0 ≤ x) → ∀ e ∈ l, 0 < e → 0 < l.sum := by
  intro l
  induction l with
  | nil => intro _ e he; exact absurd he (List.not_mem_nil e)
  | cons x rest ih =>
      intro hnn e he hepos
      have hrestnn : ∀ y ∈ rest, 0 ≤ y :=
        fun y hy => hnn y (List.mem_cons_of_mem x hy)
      have hrestsum : 0 ≤ rest.sum := List.sum_nonneg hrestnn
      rcases List.mem_cons.mp he with rfl | htail
      · show 0 < e + rest.sum
        linarith
      · have := ih hrestnn e htail hepos
        have hx : 0 ≤ x := hnn x (List.mem_cons_self x rest)
        show 0 < x + rest.sum
        linarith

theorem ratVar_pos (l : List ℚ) (hne : l ≠ [])
    (hnc : ∃ a ∈ l, ∃ b ∈ l, a ≠ b) : 0 < ratVar l := by
  obtain ⟨a, ha, b, hb, hab⟩ := hnc
  have hdev : a - ratMean l ≠ 0 ∨ b - ratMean l ≠ 0 := by
    by_contra hc
    push_neg at hc
    apply hab
    have h1 : a = ratMean l := by linarith [hc.1]
    have h2 : b = ratMean l := by linarith [hc.2]
    rw [h1, h2]
  have hlen : 0 < (l.length : ℚ) := by
    have : 0 < l.length := List.length_pos.mpr hne
    exact_mod_cast this
  have hnn : ∀ x ∈ l.map (fun x => (x - ratMean l) ^ 2), 0 ≤ x := by
    intro x hx
    obtain ⟨y, _, rfl⟩ := List.mem_map.mp hx
    positivity
  have hpos : 0 < (l.map (fun x => (x - ratMean l) ^ 2)).sum := by
    rcases hdev with hd | hd
    · exact sum_pos_of_mem_pos _ hnn ((a - ratMean l) ^ 2)
        (List.mem_map_of_mem _ ha) (by positivity)
    · exact sum_pos_of_mem_pos _ hnn ((b - ratMean l) ^ 2)
        (List.mem_map_of_mem _ hb) (by positivity)
  rw [ratVar]
  positivity

theorem ratVar_const_of_pairwise (l : List ℚ) (hne : l ≠ [])
    (hall : ∀ a ∈ l, ∀ b ∈ l, a = b) : ratVar l = 0 := by
  obtain ⟨x, rest, rfl⟩ := List.exists_cons_of_ne_nil hne
  exact ratVar_const _ x (List.cons_ne_nil x rest)
    (fun y hy => hall y hy x (List.mem_cons_self x rest))

theorem all_fin_eq_rseries (c : List EF) (hf : ∀ x ∈ c, ∃ q, x = EF.fin q) :
    c = rseries (c.map EF.toQ) := by
  rw [rseries, List.map_map]
  have hpt : ∀ x ∈ c, (EF.fin ∘ EF.toQ) x = id x := by
    intro x hx
    obtain ⟨q, rfl⟩ := hf x hx
    rfl
  rw [List.map_congr_left hpt, List.map_id]

theorem pctChangeGo_shape :
    ∀ (rest : List EF) (prev : EF), posPriceB prev = true →
      (∀ x ∈ rest, posPriceB x = true) →
      ∀ y ∈ pctChangeGo prev rest, y = EF.nan ∨ ∃ q, y = EF.fin q := by
  intro rest
  induction rest with
  | nil => intro _ _ _ y hy; exact absurd hy (List.not_mem_nil y)
  | cons x xs ih =>
      intro prev hprev hall y hy
      have hx : posPriceB x = true := hall x (List.mem_cons_self x xs)
      have htail := ih x hx (fun z hz => hall z (List.mem_cons_of_mem x hz))
      rcases List.mem_cons.mp hy with rfl | hmem
      · cases prev with
        | nan =>
            left
            cases x <;> rfl
        | pinf => exact absurd hprev (by simp [posPriceB])
        | ninf => exact absurd hprev (by simp [posPriceB])
        | fin p =>
            have hp : 0 < p := by simpa [posPriceB] using hprev
            cases x with
            | nan => left; rfl
            | pinf => exact absurd hx (by simp [posPriceB])
            | ninf => exact absurd hx (by simp [posPriceB])
            | fin q =>
                right
                refine ⟨(q - p) / p, ?_⟩
                rw [EF.sub_fin, EF.div_fin _ _ (ne_of_gt hp)]
      · exact htail y hmem

theorem pctChange_shape (c : List EF) (hc : ∀ x ∈ c, posPriceB x = true) :
    ∀ y ∈ pctChange c, y = EF.nan ∨ ∃ q, y = EF.fin q := by
  cases c with
  | nil => intro y hy; exact absurd hy (List.not_mem_nil y)
  | cons x rest =>
      intro y hy
      rcases List.mem_cons.mp hy with rfl | hmem
      · left; rfl
      · exact pctChangeGo_shape rest x (hc x (List.mem_cons_self x rest))
          (fun z hz => hc z (List.mem_cons_of_mem x hz)) y hmem

theorem cleanedCols_length (cols : List (List EF)) :
    (cleanedCols cols).length = cols.length := by
  show ((cols.map pctChange).map _).length = _
  rw [List.length_map, List.length_map]

theorem colAt_form (cols : List (List EF)) (i : ℕ) (hi : i < cols.length) :
    colAt cols i
      = ((List.range (nRows (cols.map pctChange))).filter
          (fun idx => rowKept (cols.map pctChange) idx)).map
          (fun idx => (pctChange cols[i]).getD idx EF.nan) := by
  have hi' : i < ((cols.map pctChange).map (fun c =>
      ((List.range (nRows (cols.map pctChange))).filter
        (fun idx => rowKept (cols.map pctChange) idx)).map
        (fun idx => c.getD idx EF.nan))).length := by
    rw [List.length_map, List.length_map]
    exact hi
  show ((cols.map pctChange).map _).getD i [] = _
  rw [List.getD_eq_getElem _ _ hi', List.getElem_map, List.getElem_map]

theorem colAt_length_eq (cols : List (List EF)) (i j : ℕ)
    (hi : i < cols.length) (hj : j < cols.length) :
    (colAt cols i).length = (colAt cols j).length := by
  rw [colAt_form cols i hi, colAt_form cols j hj, List.length_map, List.length_map]

theorem entryAt_eq (cols : List (List EF)) (i j : ℕ)
    (hi : i < cols.length) (hj : j < cols.length) :
    entryAt cols i j = corrEntry (colAt cols i) (colAt cols j) := by
  have hi' : i < (cleanedCols cols).length := by
    rw [cleanedCols_length]
    exact hi
  have hj' : j < (cleanedCols cols).length := by
    rw [cleanedCols_length]
    exact hj
  have hmaplen : i < ((cleanedCols cols).map
      (fun x => (cleanedCols cols).map (fun y => corrEntry x y))).length := by
    rw [List.length_map]
    exact hi'
  show (((cleanedCols cols).map
      (fun x => (cleanedCols cols).map (fun y => corrEntry x y))).getD i []).getD
      j CorrEntry.undef = _
  rw [List.getD_eq_getElem _ _ hmaplen, List.getElem_map]
  have hmaplen2 : j < ((cleanedCols cols).map
      (fun y => corrEntry ((cleanedCols cols).get ⟨i, hi'⟩) y)).length := by
    rw [List.length_map]
    exact hj'
  rw [show (cleanedCols cols)[i] = (cleanedCols cols).get ⟨i, hi'⟩ from rfl]
  rw [List.getD_eq_getElem _ _ hmaplen2, List.getElem_map]
  rw [colAt, colAt, List.getD_eq_getElem _ _ hi', List.getD_eq_getElem _ _ hj']
  rfl

theorem colAt_all_fin (cols : List (List EF))
    (hpos : ∀ c ∈ cols, ∀ x ∈ c, posPriceB x = true) (i : ℕ)
    (hi : i < cols.length) :
    ∀ x ∈ colAt cols i, ∃ q, x = EF.fin q := by
  intro x hx
  rw [colAt_form cols i hi] at hx
  obtain ⟨idx, hidx, rfl⟩ := List.mem_map.mp hx
  have hkept : rowKept (cols.map pctChange) idx = true := by
    have := (List.mem_filter.mp hidx).2
    simpa using this
  have hmemret : pctChange cols[i] ∈ cols.map pctChange :=
    List.mem_map_of_mem _ (List.getElem_mem hi)
  have hne : (pctChange cols[i]).getD idx EF.nan ≠ EF.nan := by
    have hall := List.all_eq_true.mp hkept _ hmemret
    simpa using hall
  by_cases hlt : idx < (pctChange cols[i]).length
  · have hmem2 : (pctChange cols[i]).getD idx EF.nan ∈ pctChange cols[i] := by
      rw [List.getD_eq_getElem _ _ hlt]
      exact List.getElem_mem hlt
    rcases pctChange_shape cols[i]
        (hpos cols[i] (List.getElem_mem hi)) _ hmem2 with hnan | hfin
    · exact absurd hnan hne
    · exact hfin
  · exfalso
    apply hne
    apply List.getD_eq_default
    omega

theorem colAt_rseries (cols : List (List EF))
    (hpos : ∀ c ∈ cols, ∀ x ∈ c, posPriceB x = true) (i : ℕ)
    (hi : i < cols.length) :
    colAt cols i = rseries ((colAt cols i).map EF.toQ) :=
  all_fin_eq_rseries _ (colAt_all_fin cols hpos i hi)

/-- Claim C9: properties of `correlation_matrix` on a wide price table
whose cells are missing or positive finite prices.  The matrix is
symmetric (`corr(i,j) = corr(j,i)` for every pair, with no hypothesis on
the data); the diagonal cell of a ticker whose cleaned return column is
non-constant is the Pearson value `1` (`CorrEntry.isOne`, justified by
`corr_value_one_iff`); and every cell in the row/column of a ticker
whose cleaned return column is constant is the undefined sentinel. -/
theorem C9_correlation_matrix (cols : List (List EF))
    (hpos : ∀ c ∈ cols, ∀ x ∈ c, posPriceB x = true) (i j : ℕ)
    (hi : i < cols.length) (hj : j < cols.length) :
    entryAt cols i j = entryAt cols j i ∧
    ((∃ a ∈ colAt cols i, ∃ b ∈ colAt cols i, a ≠ b) →
      (entryAt cols i i).isOne) ∧
    ((∀ a ∈ colAt cols i, ∀ b ∈ colAt cols i, a = b) →
      entryAt cols i j = CorrEntry.undef ∧ entryAt cols j i = CorrEntry.undef) := by
  have hri := colAt_rseries cols hpos i hi
  have hrj := colAt_rseries cols hpos j hj
  set li := (colAt cols i).map EF.toQ with hli
  set lj := (colAt cols j).map EF.toQ with hlj
  refine ⟨?_, ?_, ?_⟩
  · rw [entryAt_eq cols i j hi hj, entryAt_eq cols j i hj hi]
    exact corrEntry_comm _ _
  · intro hnc
    rw [entryAt_eq cols i i hi hi, hri]
    obtain ⟨a, ha, b, hb, hab⟩ := hnc
    rw [hri] at ha hb
    obtain ⟨qa, hqa, rfl⟩ := List.mem_map.mp ha
    obtain ⟨qb, hqb, rfl⟩ := List.mem_map.mp hb
    have hqab : qa ≠ qb := fun hc => hab (by rw [hc])
    have hline : li ≠ [] := by
      intro hc
      rw [hc] at hqa
      exact absurd hqa (List.not_mem_nil qa)
    have hvpos : 0 < ratVar li := ratVar_pos li hline ⟨qa, hqa, qb, hqb, hqab⟩
    have hvar := covE_self li hline
    have hmul : EF.mul (EF.fin (ratVar li)) (EF.fin (ratVar li))
        = EF.fin (ratVar li * ratVar li) := rfl
    rw [corrEntry, hvar, hmul]
    show (if ratVar li * ratVar li = 0 then CorrEntry.undef
      else CorrEntry.corr (ratVar li) (ratVar li * ratVar li)).isOne
    rw [if_neg (mul_pos hvpos hvpos).ne']
    exact ⟨hvpos, pow_two (ratVar li)⟩
  · intro hconst
    rw [entryAt_eq cols i j hi hj, entryAt_eq cols j i hj hi, hri, hrj]
    have hlenij : li.length = lj.length := by
      rw [hli, hlj, List.length_map, List.length_map]
      exact colAt_length_eq cols i j hi hj
    by_cases hline : li = []
    · have hljnil : lj = [] := by
        rw [hline] at hlenij
        exact List.length_eq_zero.mp hlenij.symm
      rw [hline, hljnil]
      exact ⟨rfl, rfl⟩
    · have hljne : lj ≠ [] := by
        intro hc
        apply hline
        rw [hc] at hlenij
        exact List.length_eq_zero.mp hlenij
      have hallq : ∀ a ∈ li, ∀ b ∈ li, a = b := by
        intro a ha b hb
        have h1 := hconst (EF.fin a) (by rw [hri]; exact List.mem_map_of_mem _ ha)
          (EF.fin b) (by rw [hri]; exact List.mem_map_of_mem _ hb)
        simpa using h1
      have hvar0 : ratVar li = 0 := ratVar_const_of_pairwise li hline hallq
      have hvi : covE (rseries li) (rseries li) = EF.fin 0 := by
        rw [covE_self li hline, hvar0]
      have hvj := covE_self lj hljne
      have hcij := covE_rseries li lj hline hljne
      have hcji := covE_rseries lj li hljne hline
      constructor
      · rw [corrEntry, hcij, hvi, hvj]
        have hmul : EF.mul (EF.fin 0) (EF.fin (ratVar lj))
            = EF.fin (0 * ratVar lj) := rfl
        rw [hmul, zero_mul]
        show (if (0 : ℚ) = 0 then CorrEntry.undef else _) = CorrEntry.undef
        rw [if_pos rfl]
      · rw [corrEntry, hcji, hvi, hvj]
        have hmul : EF.mul (EF.fin (ratVar lj)) (EF.fin 0)
            = EF.fin (ratVar lj * 0) := rfl
        rw [hmul, mul_zero]
        show (if (0 : ℚ) = 0 then CorrEntry.undef else _) = CorrEntry.undef
        rw [if_pos rfl]

section LastConcreteWitness

attribute [local semireducible] Rat.add Rat.sub Rat.mul Rat.inv

/-- Claim C9 witness: the correlation-matrix properties at a concrete
wide table of two tickers over three timestamps with closes
`100, 110, 99` and `50, 55, 60`. -/
theorem C9_correlation_matrix_witness :
    ((∀ c ∈ [[EF.fin 100, EF.fin 110, EF.fin 99],
        [EF.fin 50, EF.fin 55, EF.fin 60]],
      ∀ x ∈ c, posPriceB x = true) ∧
      (0 : ℕ) < 2 ∧ (1 : ℕ) < 2) ∧
    (entryAt [[EF.fin 100, EF.fin 110, EF.fin 99],
        [EF.fin 50, EF.fin 55, EF.fin 60]] 0 1
      = entryAt [[EF.fin 100, EF.fin 110, EF.fin 99],
        [EF.fin 50, EF.fin 55, EF.fin 60]] 1 0 ∧
    ((∃ a ∈ colAt [[EF.fin 100, EF.fin 110, EF.fin 99],
        [EF.fin 50, EF.fin 55, EF.fin 60]] 0,
      ∃ b ∈ colAt [[EF.fin 100, EF.fin 110, EF.fin 99],
        [EF.fin 50, EF.fin 55, EF.fin 60]] 0, a ≠ b) →
      (entryAt [[EF.fin 100, EF.fin 110, EF.fin 99],
        [EF.fin 50, EF.fin 55, EF.fin 60]] 0 0).isOne) ∧
    ((∀ a ∈ colAt [[EF.fin 100, EF.fin 110, EF.fin 99],
        [EF.fin 50, EF.fin 55, EF.fin 60]] 0,
      ∀ b ∈ colAt [[EF.fin 100, EF.fin 110, EF.fin 99],
        [EF.fin 50, EF.fin 55, EF.fin 60]] 0, a = b) →
      entryAt [[EF.fin 100, EF.fin 110, EF.fin 99],
        [EF.fin 50, EF.fin 55, EF.fin 60]] 0 1 = CorrEntry.undef ∧
      entryAt [[EF.fin 100, EF.fin 110, EF.fin 99],
        [EF.fin 50, EF.fin 55, EF.fin 60]] 1 0 = CorrEntry.undef)) :=
  ⟨⟨by decide, by decide, by decide⟩,
    C9_correlation_matrix
      [[EF.fin 100, EF.fin 110, EF.fin 99], [EF.fin 50, EF.fin 55, EF.fin 60]]
      (by decide) 0 1 (by decide) (by decide)⟩

end LastConcreteWitness
